import Mathlib

/-!
Verification development for the f-pacs repository.

The elliptic-curve library (curve25519-dalek) is treated, as in the source,
as an oracle providing a prime-order group with generator `G`, its scalar
field, compressed encodings and hash-to-scalar.  We model the scalar field
as `ZMod q` for a prime `q` and the prime-order group additively by its
exponent group, i.e. also `ZMod q` with basepoint `G = 1` and scalar
multiplication given by field multiplication; this is the standard shallow
embedding of a cyclic group of prime order.  Byte strings are `List ℕ`.
Hash functions, the binary codec (bincode) and the AES stream cipher are
external collaborators of the repository; they appear as explicit
parameters (an `Oracle` record) and theorems assume only their documented
interface laws (e.g. decrypt ∘ encrypt = id).

All definitions are translated from the Rust sources in `src/`.
-/

set_option maxRecDepth 100000

namespace FPacs

/-- The group basepoint `G` (crypto/mod.rs): generator of the prime-order
group, written additively via its exponent group. -/
def G (q : ℕ) : ZMod q := 1

/-- crypto/mod.rs `KeyPair`: secret scalar `s` and public key `s·G`. -/
structure KeyPair (q : ℕ) where
  s : ZMod q
  key : ZMod q

/-- crypto/mod.rs `KeyPair::new` applied to a given secret scalar `s`
(the randomness of `rnd_scalar` made explicit). -/
def KeyPair.mk' (q : ℕ) (s : ZMod q) : KeyPair q :=
  ⟨s, s * G q⟩

/-- crypto/shares.rs `Share`: index `i` (a `u32`, modeled as `ℕ`) and
value `yi = f(i)`. -/
structure Share (q : ℕ) where
  i : ℕ
  yi : ZMod q
deriving DecidableEq

/-- crypto/shares.rs `RistrettoShare`: index and point value `Yi`. -/
structure RistrettoShare (q : ℕ) where
  i : ℕ
  Yi : ZMod q
deriving DecidableEq

/-- crypto/shares.rs: `impl Mul<&RistrettoPoint> for &Share`, the lift of a
scalar share by a point `Q`, producing `(i, yi·Q)`. -/
def Share.mulPoint {q : ℕ} (s : Share q) (Q : ZMod q) : RistrettoShare q :=
  ⟨s.i, s.yi * Q⟩

/-- crypto/shares.rs `ShareVector` (a plain public `Vec<Share>`; the source
has no validating constructor). -/
abbrev ShareVector (q : ℕ) := List (Share q)

/-- crypto/shares.rs `RistrettoShareVector`. -/
abbrev RistrettoShareVector (q : ℕ) := List (RistrettoShare q)

/-- crypto/shares.rs `impl Mul<&RistrettoPoint> for &ShareVector`:
pointwise lift of every share by `Q`. -/
def ShareVector.mulPoint {q : ℕ} (v : ShareVector q) (Q : ZMod q) :
    RistrettoShareVector q :=
  v.map (fun s => s.mulPoint Q)

/-- curve25519-dalek `Scalar::invert`, which raises to the power `ℓ - 2`
(Fermat inversion); in particular it maps 0 to 0 for any prime modulus
greater than 2. -/
def scalarInvert {q : ℕ} (x : ZMod q) : ZMod q :=
  x ^ (q - 2)

/-- crypto/shares.rs `Polynomial::l_i`: the Lagrange basis value at 0,
`(∏_{j≠i} range[j]) * invert (∏_{j≠i} (range[j] - range[i]))`, computed
exactly as the source loop does (one inversion of the accumulated
denominator). -/
def Polynomial.l_i {q : ℕ} (range : List (ZMod q)) (i : ℕ) : ZMod q :=
  (((Finset.range range.length).filter (fun j => j ≠ i)).prod
      (fun j => range.getD j 0)) *
  scalarInvert
    (((Finset.range range.length).filter (fun j => j ≠ i)).prod
      (fun j => range.getD j 0 - range.getD i 0))

/-- crypto/shares.rs `Polynomial::evaluate` (Horner's rule from the
highest-degree coefficient down, as in the source's reversed iterator;
the empty coefficient list — which panics in the source — is mapped
to 0 and never occurs in any claim). -/
def Polynomial.evaluate {q : ℕ} (a : List (ZMod q)) (x : ZMod q) : ZMod q :=
  match a.reverse with
  | [] => 0
  | h :: t => t.foldl (fun acc c => acc * x + c) h

/-- crypto/shares.rs `Polynomial::shares(n)`: `[(j, f(j)) for j in 1..=n]`. -/
def Polynomial.shares {q : ℕ} (a : List (ZMod q)) (n : ℕ) : ShareVector q :=
  (List.range n).map (fun j => ⟨j + 1, Polynomial.evaluate a ((j + 1 : ℕ) : ZMod q)⟩)

/-- crypto/shares.rs `ShareVector::recover`:
`Σᵢ l_i(range, i) · yᵢ` with `range = map Scalar::from indices`. -/
def ShareVector.recover {q : ℕ} (v : ShareVector q) : ZMod q :=
  ((List.range v.length).map
    (fun k => Polynomial.l_i (v.map (fun s => ((s.i : ℕ) : ZMod q))) k
      * (v.getD k ⟨0, 0⟩).yi)).sum

/-- crypto/shares.rs `RistrettoShareVector::recover`: the same Lagrange
combination in the exponent, starting from the identity point. -/
def RistrettoShareVector.recover {q : ℕ} (v : RistrettoShareVector q) : ZMod q :=
  ((List.range v.length).map
    (fun k => Polynomial.l_i (v.map (fun s => ((s.i : ℕ) : ZMod q))) k
      * (v.getD k ⟨0, 0⟩).Yi)).sum

end FPacs

/-! ### Horner evaluation bridged to `Mathlib.Polynomial` -/

/-- Structural polynomial evaluation, used to relate the source's Horner
loop to `Mathlib`'s polynomials. -/
def evalAux {q : ℕ} (a : List (ZMod q)) (x : ZMod q) : ZMod q :=
  match a with
  | [] => 0
  | c :: t => c + x * evalAux t x

theorem evaluate_eq_evalAux {q : ℕ} (a : List (ZMod q)) (x : ZMod q) :
    FPacs.Polynomial.evaluate a x = evalAux a x := by
  induction a with
  | nil => rfl
  | cons c t ih =>
    rcases ht : t.reverse with _ | ⟨h, tr⟩
    · have : t = [] := by simpa using congrArg List.reverse ht
      subst this
      simp [FPacs.Polynomial.evaluate, evalAux]
    · have hrev : (c :: t).reverse = h :: (tr ++ [c]) := by
        simp [ht]
      have hfold : (tr ++ [c]).foldl (fun acc k => acc * x + k) h
          = (tr.foldl (fun acc k => acc * x + k) h) * x + c := by
        rw [List.foldl_append]
        rfl
      have hthis : FPacs.Polynomial.evaluate (c :: t) x
          = (tr.foldl (fun acc k => acc * x + k) h) * x + c := by
        unfold FPacs.Polynomial.evaluate
        rw [hrev]
        exact hfold
      have hprev : FPacs.Polynomial.evaluate t x
          = tr.foldl (fun acc k => acc * x + k) h := by
        unfold FPacs.Polynomial.evaluate
        rw [ht]
      rw [hthis, ← hprev, ih, evalAux]
      ring

/-- The `Mathlib` polynomial with the given (low-to-high) coefficient list
(a proof-side bridge, never evaluated). -/
noncomputable def listPoly {q : ℕ} (a : List (ZMod q)) : Polynomial (ZMod q) :=
  a.foldr (fun c acc => Polynomial.C c + Polynomial.X * acc) 0

theorem listPoly_nil {q : ℕ} : listPoly ([] : List (ZMod q)) = 0 := rfl

theorem listPoly_cons {q : ℕ} (c : ZMod q) (t : List (ZMod q)) :
    listPoly (c :: t) = Polynomial.C c + Polynomial.X * listPoly t := rfl

theorem listPoly_eval {q : ℕ} (a : List (ZMod q)) (x : ZMod q) :
    (listPoly a).eval x = evalAux a x := by
  induction a with
  | nil => simp [listPoly_nil, evalAux]
  | cons c t ih => simp [listPoly_cons, evalAux, ih]

theorem listPoly_degree_lt {q : ℕ} [Fact (Nat.Prime q)] (a : List (ZMod q)) :
    (listPoly a).degree < (a.length : WithBot ℕ) := by
  induction a with
  | nil =>
    rw [listPoly_nil, Polynomial.degree_zero]
    exact WithBot.bot_lt_coe _
  | cons c t ih =>
    have h1 : (listPoly (c :: t)).degree
        ≤ max (Polynomial.C c).degree (Polynomial.X * listPoly t).degree := by
      rw [listPoly_cons]
      exact Polynomial.degree_add_le _ _
    refine lt_of_le_of_lt h1 (max_lt ?_ ?_)
    · refine lt_of_le_of_lt Polynomial.degree_C_le ?_
      exact_mod_cast WithBot.coe_lt_coe.mpr (Nat.succ_pos t.length)
    · have h3 : (Polynomial.X * listPoly t).degree ≤ 1 + (listPoly t).degree := by
        refine le_trans (Polynomial.degree_mul_le _ _) ?_
        rw [Polynomial.degree_X]
      have h4 : (1 : WithBot ℕ) + (listPoly t).degree
          < 1 + (t.length : WithBot ℕ) :=
        WithBot.add_lt_add_left (by simp) ih
      refine lt_of_le_of_lt h3 (lt_of_lt_of_le h4 ?_)
      have : ((t.length + 1 : ℕ) : WithBot ℕ) = 1 + (t.length : WithBot ℕ) := by
        push_cast
        ring
      rw [List.length_cons, this]

/-! ### Lagrange recovery: `ShareVector::recover` returns the secret -/

theorem filter_range_prod_eq {M : Type} [CommMonoid M] {m k : ℕ} (hk : k < m)
    (g : ℕ → M) (g' : Fin m → M) (hg : ∀ j : Fin m, g j.val = g' j) :
    ∏ j ∈ (Finset.range m).filter (fun j => j ≠ k), g j
      = ∏ j ∈ Finset.univ.erase (⟨k, hk⟩ : Fin m), g' j := by
  refine Finset.prod_bij'
    (fun a ha => (⟨a, (Finset.mem_range.mp (Finset.mem_filter.mp ha).1)⟩ : Fin m))
    (fun b _ => b.val) ?_ ?_ ?_ ?_ ?_
  · intro a ha
    rcases Finset.mem_filter.mp ha with ⟨_, hne⟩
    refine Finset.mem_erase.mpr ⟨?_, Finset.mem_univ _⟩
    intro hcontra
    exact hne (congrArg Fin.val hcontra)
  · intro b hb
    rcases Finset.mem_erase.mp hb with ⟨hne, _⟩
    refine Finset.mem_filter.mpr ⟨Finset.mem_range.mpr b.isLt, ?_⟩
    intro hcontra
    exact hne (Fin.ext hcontra)
  · intro a _
    rfl
  · intro b _
    rfl
  · intro a ha
    exact (hg _).symm ▸ (hg ⟨a, Finset.mem_range.mp (Finset.mem_filter.mp ha).1⟩).symm ▸ rfl

/-- Fermat inversion agrees with field inversion away from 0. -/
theorem scalarInvert_eq_inv {q : ℕ} [Fact (Nat.Prime q)] {x : ZMod q}
    (hx : x ≠ 0) : FPacs.scalarInvert x = x⁻¹ := by
  have hq : 2 ≤ q := (Fact.out : Nat.Prime q).two_le
  have h1 : x ^ (q - 2) * x = 1 := by
    have h2 : x ^ (q - 2) * x = x ^ (q - 1) := by
      rw [← pow_succ]
      congr 1
      omega
    rw [h2, ZMod.pow_card_sub_one_eq_one hx]
  exact eq_inv_of_mul_eq_one_left h1

theorem l_i_eq_basis_eval {q : ℕ} [Fact (Nat.Prime q)] (xs : List (ZMod q))
    (hnd : xs.Nodup) (k : Fin xs.length) :
    FPacs.Polynomial.l_i xs k.val
      = Polynomial.eval 0 (Lagrange.basis Finset.univ xs.get k) := by
  have hnum : ∏ j ∈ (Finset.range xs.length).filter (fun j => j ≠ k.val), xs.getD j 0
      = ∏ j ∈ Finset.univ.erase k, xs.get j := by
    have := filter_range_prod_eq (M := ZMod q) k.isLt
      (fun j => xs.getD j 0) (fun j => xs.get j)
      (fun j => by
        show xs.getD j.val 0 = xs.get j
        rw [List.getD_eq_getElem xs 0 j.isLt, List.get_eq_getElem])
    simpa using this
  have hden : ∏ j ∈ (Finset.range xs.length).filter (fun j => j ≠ k.val),
        (xs.getD j 0 - xs.getD k.val 0)
      = ∏ j ∈ Finset.univ.erase k, (xs.get j - xs.get k) := by
    have := filter_range_prod_eq (M := ZMod q) k.isLt
      (fun j => xs.getD j 0 - xs.getD k.val 0)
      (fun j => xs.get j - xs.get k)
      (fun j => by
        show xs.getD j.val 0 - xs.getD k.val 0 = xs.get j - xs.get k
        rw [List.getD_eq_getElem xs 0 j.isLt, List.getD_eq_getElem xs 0 k.isLt,
          List.get_eq_getElem, List.get_eq_getElem])
    simpa using this
  have hfac : ∀ j ∈ Finset.univ.erase k, xs.get j - xs.get k ≠ 0 := by
    intro j hj
    rcases Finset.mem_erase.mp hj with ⟨hjk, _⟩
    exact sub_ne_zero.mpr
      (fun hcontra => hjk (List.nodup_iff_injective_get.mp hnd hcontra))
  have hprod_ne : (∏ j ∈ Finset.univ.erase k, (xs.get j - xs.get k)) ≠ 0 :=
    Finset.prod_ne_zero_iff.mpr hfac
  unfold FPacs.Polynomial.l_i
  rw [hnum, hden, scalarInvert_eq_inv hprod_ne, Lagrange.basis,
    Polynomial.eval_prod]
  rw [← Finset.prod_inv_distrib, ← Finset.prod_mul_distrib]
  refine Finset.prod_congr rfl ?_
  intro j _
  have hbd : Polynomial.eval 0 (Lagrange.basisDivisor (xs.get k) (xs.get j))
      = (xs.get k - xs.get j)⁻¹ * (0 - xs.get j) := by
    simp [Lagrange.basisDivisor]
  rw [hbd]
  rw [show xs.get j - xs.get k = -(xs.get k - xs.get j) by ring, inv_neg]
  ring

/-- Core Lagrange recovery: applying `ShareVector::recover` to shares
`(i, f(i))` taken at distinct abscissae returns `f(0) = a₀`. -/
theorem recover_map_eval {q : ℕ} [Fact (Nat.Prime q)] (a : List (ZMod q)) (sel : List ℕ)
    (hnd : (sel.map (fun i : ℕ => (i : ZMod q))).Nodup)
    (hlen : a.length ≤ sel.length) :
    FPacs.ShareVector.recover
      (sel.map (fun i : ℕ => ⟨i, FPacs.Polynomial.evaluate a (i : ZMod q)⟩))
      = a.headD 0 := by
  classical
  set xs : List (ZMod q) := sel.map (fun i : ℕ => (i : ZMod q)) with hxs
  set v : FPacs.ShareVector q :=
    sel.map (fun i : ℕ => ⟨i, FPacs.Polynomial.evaluate a (i : ZMod q)⟩) with hv
  have hvr : v.map (fun s => ((s.i : ℕ) : ZMod q)) = xs := by
    rw [hv, hxs, List.map_map]
    rfl
  have hvlen : v.length = sel.length := by
    rw [hv, List.length_map]
  have hxlen : xs.length = sel.length := by
    rw [hxs, List.length_map]
  have hrec : FPacs.ShareVector.recover v
      = ∑ k ∈ Finset.range xs.length,
          FPacs.Polynomial.l_i xs k * (v.getD k ⟨0, 0⟩).yi := by
    unfold FPacs.ShareVector.recover
    rw [hvr, hvlen, ← hxlen]
    rfl
  rw [hrec,
    ← Fin.sum_univ_eq_sum_range
      (fun k => FPacs.Polynomial.l_i xs k * (v.getD k ⟨0, 0⟩).yi) xs.length]
  have hterm : ∀ k : Fin xs.length,
      FPacs.Polynomial.l_i xs k.val * (v.getD k.val ⟨0, 0⟩).yi
        = Polynomial.eval 0
            (Polynomial.C ((listPoly a).eval (xs.get k))
              * Lagrange.basis Finset.univ xs.get k) := by
    intro k
    have hk : k.val < v.length := by
      rw [hvlen, ← hxlen]
      exact k.isLt
    have hksel : k.val < sel.length := by
      rw [← hxlen]
      exact k.isLt
    have hyi : (v.getD k.val ⟨0, 0⟩).yi = (listPoly a).eval (xs.get k) := by
      rw [List.getD_eq_getElem v ⟨0, 0⟩ hk]
      simp only [hv, List.getElem_map]
      show FPacs.Polynomial.evaluate a ((sel[k.val] : ℕ) : ZMod q)
        = (listPoly a).eval (xs.get k)
      rw [evaluate_eq_evalAux, ← listPoly_eval]
      congr 1
      rw [List.get_eq_getElem]
      simp only [hxs, List.getElem_map]
    rw [hyi, l_i_eq_basis_eval xs hnd k]
    rw [Polynomial.eval_mul, Polynomial.eval_C]
    ring
  rw [Finset.sum_congr rfl (fun k _ => hterm k), ← Polynomial.eval_finset_sum]
  have hinterp :
      (∑ k : Fin xs.length,
        Polynomial.C ((listPoly a).eval (xs.get k)) * Lagrange.basis Finset.univ xs.get k)
      = Lagrange.interpolate Finset.univ xs.get
          (fun k => Polynomial.eval (xs.get k) (listPoly a)) := by
    rw [Lagrange.interpolate_apply]
  rw [hinterp]
  have hinj : Set.InjOn xs.get (Finset.univ : Finset (Fin xs.length)) :=
    (List.nodup_iff_injective_get.mp hnd).injOn
  have hdeg : (listPoly a).degree
      < ((Finset.univ : Finset (Fin xs.length)).card : WithBot ℕ) := by
    rw [Finset.card_univ, Fintype.card_fin]
    refine lt_of_lt_of_le (listPoly_degree_lt a) ?_
    have : a.length ≤ xs.length := hlen.trans_eq hxlen.symm
    exact_mod_cast this
  rw [← Lagrange.eq_interpolate hinj hdeg, listPoly_eval]
  cases a with
  | nil => rfl
  | cons c t => simp [evalAux]

/-- Point-share recovery is the scalar recovery "in the exponent": lifting
every share by `Q` and recovering yields `recover(v) · Q`. -/
theorem ristretto_recover_mulPoint {q : ℕ} (v : FPacs.ShareVector q) (Q : ZMod q) :
    FPacs.RistrettoShareVector.recover (v.mulPoint Q)
      = FPacs.ShareVector.recover v * Q := by
  have h1 : FPacs.RistrettoShareVector.recover (v.mulPoint Q)
      = ∑ k ∈ Finset.range v.length,
          FPacs.Polynomial.l_i (v.map (fun s => ((s.i : ℕ) : ZMod q))) k
            * ((v.map (fun s : FPacs.Share q => s.mulPoint Q)).getD k
                (⟨0, 0⟩ : FPacs.RistrettoShare q)).Yi := by
    unfold FPacs.RistrettoShareVector.recover FPacs.ShareVector.mulPoint
    rw [List.length_map, List.map_map]
    rfl
  have h2 : FPacs.ShareVector.recover v
      = ∑ k ∈ Finset.range v.length,
          FPacs.Polynomial.l_i (v.map (fun s => ((s.i : ℕ) : ZMod q))) k
            * (v.getD k ⟨0, 0⟩).yi := rfl
  rw [h1, h2, Finset.sum_mul]
  refine Finset.sum_congr rfl ?_
  intro k hk
  have hk' : k < v.length := Finset.mem_range.mp hk
  have hmap : ((v.map (fun s : FPacs.Share q => s.mulPoint Q)).getD k
        (⟨0, 0⟩ : FPacs.RistrettoShare q))
      = (v.getD k ⟨0, 0⟩).mulPoint Q := by
    rw [List.getD_eq_getElem _ _ (by rw [List.length_map]; exact hk'),
      List.getD_eq_getElem _ _ hk']
    simp only [List.getElem_map]
  rw [hmap]
  unfold FPacs.Share.mulPoint
  ring

/-! ### Schnorr signatures, records and chains (crypto/signatures.rs, structs.rs) -/

namespace FPacs

/-- crypto/signatures.rs `Signature`: the two scalars `(c, p)`.  (The
`encoded` field of the source is the base64 rendering of `c ∥ p`, derived
data; its 136-byte bincode serialization appears as an oracle codec.) -/
structure Signature (q : ℕ) where
  c : ZMod q
  p : ZMod q
deriving DecidableEq

/-- crypto/signatures.rs `ExtSignature`: a signature together with the
public key. -/
structure ExtSignature (q : ℕ) where
  sig : Signature q
  key : ZMod q
deriving DecidableEq

/-- structs.rs `RnFileRef`: the 16-byte data key `dn` and file locator. -/
structure RnFileRef where
  dn : List ℕ
  hfile : List ℕ
deriving DecidableEq

/-- structs.rs `LambdaKey`: the 32-byte symmetric key bytes. -/
structure LambdaKey where
  key : List ℕ
deriving DecidableEq

/-- structs.rs `LambdaKey::k128`: the leading 16 bytes. -/
def LambdaKey.k128 (l : LambdaKey) : List ℕ :=
  l.key.take 16

/-- structs.rs `RnData`: the sealed payload
`(lambda_prev : Option<LambdaKey>, file : RnFileRef)`. -/
structure RnData where
  lambda_prev : Option LambdaKey
  file : RnFileRef
deriving DecidableEq

/-- The external collaborators of the repository, exactly as used by the
source: SHA-256 (`hash256`), the compressed-point encoding (`pointBytes`),
the two SHA-512 hash-to-scalar uses inside Schnorr sign/verify (`h1` for
the deterministic nonce, `h2` for the challenge), the bincode payload
codec (`ser`/`deser`), the AES-128-CBC stream cipher of the aesstream
crate (`enc`/`dec`; `enc` takes the cipher's fresh IV as an explicit
argument), and the bincode `ExtSignature` codec (`serSig`/`deserSig`,
136 bytes).  Theorems assume only interface laws about these fields. -/
structure Oracle (q : ℕ) where
  hash256 : List ℕ → List ℕ
  pointBytes : ZMod q → List ℕ
  h1 : ZMod q → List (List ℕ) → ZMod q
  h2 : ZMod q → ZMod q → List (List ℕ) → ZMod q
  ser : RnData → List ℕ
  deser : List ℕ → Option RnData
  enc : List ℕ → List ℕ → List ℕ → List ℕ
  dec : List ℕ → List ℕ → Option (List ℕ)
  serSig : ExtSignature q → List ℕ
  deserSig : List ℕ → Option (ExtSignature q)

/-- crypto/signatures.rs `Signature::sign`:
`m = H(s ∥ data)`, `M = m·G`, `c = H(key ∥ M ∥ data)`, `p = m − c·s`. -/
def Signature.sign {q : ℕ} (O : Oracle q) (s : ZMod q) (key : ZMod q)
    (data : List (List ℕ)) : Signature q :=
  let m := O.h1 s data
  let M := m * G q
  let c := O.h2 key M data
  ⟨c, m - c * s⟩

/-- crypto/signatures.rs `Signature::verify`:
`M = c·key + p·G`, accept iff `c == H(key ∥ M ∥ data)`. -/
def Signature.verify {q : ℕ} (O : Oracle q) (self : Signature q)
    (key : ZMod q) (data : List (List ℕ)) : Bool :=
  let M := self.c * key + self.p * G q
  let c := O.h2 key M data
  decide (c = self.c)

/-- crypto/signatures.rs `ExtSignature::sign`. -/
def ExtSignature.sign {q : ℕ} (O : Oracle q) (s : ZMod q) (key : ZMod q)
    (data : List (List ℕ)) : ExtSignature q :=
  ⟨Signature.sign O s key data, key⟩

/-- crypto/signatures.rs `ExtSignature::verify`. -/
def ExtSignature.verify {q : ℕ} (O : Oracle q) (self : ExtSignature q)
    (data : List (List ℕ)) : Bool :=
  Signature.verify O self.sig self.key data

/-- The byte string hashed by structs.rs `LambdaKey::new`: the SHA-256
chaining `alpha.as_bytes() ∥ id ∥ set` is the plain concatenation of the
three byte strings, with no framing. -/
def lambdaHashInput (alphaBytes id set : List ℕ) : List ℕ :=
  alphaBytes ++ id ++ set

/-- structs.rs `LambdaKey::new`: SHA-256 of `alpha ∥ id ∥ set`. -/
def LambdaKey.new {q : ℕ} (O : Oracle q) (alphaBytes id set : List ℕ) :
    LambdaKey :=
  ⟨O.hash256 (lambdaHashInput alphaBytes id set)⟩

/-- The error outcomes of the fallible `structs.rs` operations.
`unwrapNone` marks an `Option::unwrap` on `None` — a panic in the source,
kept distinct from ordinary `Err` returns. -/
inductive RnErr
  | decodeFail
  | deserFail
  | notHead
  | notTail
  | badLink
  | badSig
  | unwrapNone
  | io
deriving DecidableEq

/-- structs.rs `RnEncData`: ephemeral public point `kn` and AES ciphertext. -/
structure RnEncData (q : ℕ) where
  kn : ZMod q
  data : List ℕ
deriving DecidableEq

/-- structs.rs `RnEncData::new` with the two random draws (the DH scalar
`k` of `rnd_scalar()` and the fresh IV drawn inside `AesWriter::new`)
made explicit: `alpha = (k·ekey).compress()`, `lambda = H(alpha∥id∥set)`,
ciphertext `= enc(lambda.k128, iv, bincode(cd))`, `kn = k·G`. -/
def RnEncData.new {q : ℕ} (O : Oracle q) (ekey : ZMod q) (id set : List ℕ)
    (cd : RnData) (k : ZMod q) (iv : List ℕ) : LambdaKey × RnEncData q :=
  let alpha := O.pointBytes (k * ekey)
  let lambda := LambdaKey.new O alpha id set
  (lambda, ⟨k * G q, O.enc lambda.k128 iv (O.ser cd)⟩)

/-- structs.rs `RnEncData::data` (the unseal): AES-decrypt under
`lambda.k128`, then bincode-deserialize; each step propagates its error. -/
def RnEncData.decryptData {q : ℕ} (O : Oracle q) (self : RnEncData q)
    (lambda : LambdaKey) : Except RnErr RnData :=
  match O.dec lambda.k128 self.data with
  | none => .error .decodeFail
  | some pt =>
    match O.deser pt with
    | none => .error .deserFail
    | some cd => .ok cd

/-- structs.rs `RnEncData::to_vec`: `kn.compress() ∥ data`. -/
def RnEncData.to_vec {q : ℕ} (O : Oracle q) (self : RnEncData q) : List ℕ :=
  O.pointBytes self.kn ++ self.data

/-- structs.rs `Rn`: head records carry `Some id`/`Some set`, tail records
carry `Some hprev`. -/
structure Rn (q : ℕ) where
  id : Option (List ℕ)
  set : Option (List ℕ)
  hprev : Option (List ℕ)
  data : RnEncData q
  sig : ExtSignature q
deriving DecidableEq

instance {q : ℕ} : Inhabited (Rn q) :=
  ⟨⟨none, none, none, ⟨0, []⟩, ⟨⟨0, 0⟩, 0⟩⟩⟩

/-- structs.rs `Rn::head`: seal, hash `id ∥ set ∥ to_vec`, sign. -/
def Rn.head {q : ℕ} (O : Oracle q) (keyp : KeyPair q) (ekey : ZMod q)
    (id set : List ℕ) (rd : RnData) (k : ZMod q) (iv : List ℕ) :
    LambdaKey × Rn q :=
  let ld := RnEncData.new O ekey id set rd k iv
  let dhash := O.hash256 (id ++ set ++ ld.2.to_vec O)
  let sig := ExtSignature.sign O keyp.s keyp.key [dhash]
  (ld.1, ⟨some id, some set, none, ld.2, sig⟩)

/-- structs.rs `Rn::tail`: seal, hash `hprev ∥ to_vec`, sign. -/
def Rn.tail {q : ℕ} (O : Oracle q) (keyp : KeyPair q) (ekey : ZMod q)
    (hprev : List ℕ) (id set : List ℕ) (rd : RnData) (k : ZMod q)
    (iv : List ℕ) : LambdaKey × Rn q :=
  let ld := RnEncData.new O ekey id set rd k iv
  let dhash := O.hash256 (hprev ++ ld.2.to_vec O)
  let sig := ExtSignature.sign O keyp.s keyp.key [dhash]
  (ld.1, ⟨none, none, some hprev, ld.2, sig⟩)

/-- structs.rs `Rn::hash`: head records hash `id ∥ set ∥ to_vec`, others
`hprev ∥ to_vec` (the source `unwrap()`s of `set`/`hprev` become `getD []`;
records built by `head`/`tail` never hit the default). -/
def Rn.hash {q : ℕ} (O : Oracle q) (self : Rn q) : List ℕ :=
  match self.id with
  | some i => O.hash256 (i ++ self.set.getD [] ++ self.data.to_vec O)
  | none => O.hash256 (self.hprev.getD [] ++ self.data.to_vec O)

/-- structs.rs `Rn::check`: recompute the hash, fail if the signature does
not verify, return the hash. -/
def Rn.check {q : ℕ} (O : Oracle q) (self : Rn q) : Except RnErr (List ℕ) :=
  let dhash := self.hash O
  if self.sig.verify O [dhash] then .ok dhash else .error .badSig

/-- structs.rs `RnChain`: last-record hash and the record list. -/
structure RnChain (q : ℕ) where
  lhash : List ℕ
  chain : List (Rn q)
deriving DecidableEq

/-- structs.rs `RnChain::kn`: the `kn` of the last record. -/
def RnChain.kn {q : ℕ} (self : RnChain q) : ZMod q :=
  (self.chain.getLastD default).data.kn

/-- structs.rs `RnChain::new`: check the head record (first), then require
it to be a head. -/
def RnChain.new {q : ℕ} (O : Oracle q) (head : Rn q) :
    Except RnErr (RnChain q) :=
  match head.check O with
  | .error e => .error e
  | .ok lhash =>
    if head.id.isNone then .error .notHead
    else .ok ⟨lhash, [head]⟩

/-- structs.rs `RnChain::push`, modeled as the Rust method: the result is
the post-call state of `self` paired with the returned `Result`.  All
three failure paths (`check`, missing `hprev`, hash-link mismatch) occur
before either field of `self` is assigned. -/
def RnChain.push {q : ℕ} (O : Oracle q) (self : RnChain q) (tail : Rn q) :
    RnChain q × Except RnErr Unit :=
  match tail.check O with
  | .error e => (self, .error e)
  | .ok dhash =>
    match tail.hprev with
    | none => (self, .error .notTail)
    | some hprev =>
      if self.lhash ≠ hprev then (self, .error .badLink)
      else ({ lhash := dhash, chain := self.chain ++ [tail] }, .ok ())

/-- The loop body of structs.rs `RnChain::recover`: walk the records (the
caller passes them already reversed), unseal each with the current lambda
(`lambda.unwrap()` on `None` is the source's panic, `unwrapNone` here),
collect the files in visit order and thread `lambda = data.lambda_prev`. -/
def recoverLoop {q : ℕ} (O : Oracle q) :
    List (Rn q) → Option LambdaKey → Except RnErr (List RnFileRef)
  | [], _ => .ok []
  | rn :: rest, lam? =>
    match lam? with
    | none => .error .unwrapNone
    | some lambda =>
      match RnEncData.decryptData O rn.data lambda with
      | .error e => .error e
      | .ok d =>
        match recoverLoop O rest d.lambda_prev with
        | .error e => .error e
        | .ok fs => .ok (d.file :: fs)

/-- structs.rs `RnChain::recover`: derive the initial lambda from `alpha`
and the head's `id`/`set` (the source `unwrap()`s of `first()`, `id`,
`set` are the `unwrapNone` outcomes), walk the chain in reverse, then
reverse the collected files into head-first order.  Note the source
checks no signatures here. -/
def RnChain.recover {q : ℕ} (O : Oracle q) (self : RnChain q)
    (alphaBytes : List ℕ) : Except RnErr (List RnFileRef) :=
  match self.chain.head? with
  | none => .error .unwrapNone
  | some h =>
    match h.id, h.set with
    | some id, some set =>
      match recoverLoop O self.chain.reverse
          (some (LambdaKey.new O alphaBytes id set)) with
      | .error e => .error e
      | .ok fs => .ok fs.reverse
    | _, _ => .error .unwrapNone

end FPacs

/-! ### Signature correctness -/

/-- Shared helper: a signature produced by `Signature::sign` under secret
`s` and matching public key `s·G` verifies, for any hash oracles. -/
theorem sign_verify_ok {q : ℕ} (O : FPacs.Oracle q) (s : ZMod q)
    (data : List (List ℕ)) :
    FPacs.Signature.verify O (FPacs.Signature.sign O s (s * FPacs.G q) data)
      (s * FPacs.G q) data = true := by
  unfold FPacs.Signature.verify FPacs.Signature.sign FPacs.G
  simp only [decide_eq_true_eq]
  congr 1
  ring

/-- Shared helper: the extended-signature wrapper of the same fact. -/
theorem ext_sign_verify_ok {q : ℕ} (O : FPacs.Oracle q) (s : ZMod q)
    (data : List (List ℕ)) :
    FPacs.ExtSignature.verify O (FPacs.ExtSignature.sign O s (s * FPacs.G q) data)
      data = true := by
  unfold FPacs.ExtSignature.verify FPacs.ExtSignature.sign
  exact sign_verify_ok O s data

/-! ### Chain walk characterization and sealed-record round trip -/

/-- A successful reverse walk: every record unseals and deserializes under
the threaded lambda, collecting the files in visit order. -/
inductive WalksOk {q : ℕ} (O : FPacs.Oracle q) :
    List (FPacs.Rn q) → Option FPacs.LambdaKey → List FPacs.RnFileRef → Prop
  | nil (lam? : Option FPacs.LambdaKey) : WalksOk O [] lam? []
  | cons (rn : FPacs.Rn q) (rest : List (FPacs.Rn q)) (lambda : FPacs.LambdaKey)
      (d : FPacs.RnData) (fs : List FPacs.RnFileRef)
      (hd : FPacs.RnEncData.decryptData O rn.data lambda = .ok d)
      (hrest : WalksOk O rest d.lambda_prev fs) :
      WalksOk O (rn :: rest) (some lambda) (d.file :: fs)

theorem recoverLoop_ok_iff {q : ℕ} (O : FPacs.Oracle q) :
    ∀ (l : List (FPacs.Rn q)) (lam? : Option FPacs.LambdaKey)
      (fs : List FPacs.RnFileRef),
    FPacs.recoverLoop O l lam? = .ok fs ↔ WalksOk O l lam? fs := by
  intro l
  induction l with
  | nil =>
    intro lam? fs
    constructor
    · intro h
      have hfs : fs = [] := by
        simpa [FPacs.recoverLoop] using h.symm
      subst hfs
      exact WalksOk.nil lam?
    · intro h
      cases h
      rfl
  | cons rn rest ih =>
    intro lam? fs
    cases lam? with
    | none =>
      constructor
      · intro h
        simp [FPacs.recoverLoop] at h
      · intro h
        cases h
    | some lambda =>
      constructor
      · intro h
        rcases hd : FPacs.RnEncData.decryptData O rn.data lambda with e | d
        · simp [FPacs.recoverLoop, hd] at h
        · rcases hr : FPacs.recoverLoop O rest d.lambda_prev with e' | fs'
          · simp [FPacs.recoverLoop, hd, hr] at h
          · simp only [FPacs.recoverLoop, hd, hr, Except.ok.injEq] at h
            subst h
            exact WalksOk.cons rn rest lambda d fs' hd ((ih _ _).mp hr)
      · intro h
        cases h with
        | cons _ _ _ d fs' hd hrest =>
          simp [FPacs.recoverLoop, hd, (ih _ _).mpr hrest]

/-- Shared helper: unsealing a freshly sealed record with the lambda that
sealed it returns the original payload (given the cipher and codec
round-trip laws). -/
theorem decryptData_new {q : ℕ} (O : FPacs.Oracle q)
    (hdec : ∀ key iv m, O.dec key (O.enc key iv m) = some m)
    (hdeser : ∀ d, O.deser (O.ser d) = some d)
    (ekey : ZMod q) (id set : List ℕ) (cd : FPacs.RnData) (k : ZMod q)
    (iv : List ℕ) :
    FPacs.RnEncData.decryptData O (FPacs.RnEncData.new O ekey id set cd k iv).2
      (FPacs.RnEncData.new O ekey id set cd k iv).1 = .ok cd := by
  unfold FPacs.RnEncData.new FPacs.RnEncData.decryptData
  simp [hdec, hdeser]

/-! ### Chain construction (`Rn::head` / `new`, then `Rn::tail` / `push`) -/

/-- Shared helper: a head record built by `Rn::head` with a matching key
pair passes `check`, returning its hash. -/
theorem check_head_ok {q : ℕ} (O : FPacs.Oracle q) (kp : FPacs.KeyPair q)
    (hkp : kp.key = kp.s * FPacs.G q) (ekey : ZMod q) (id set : List ℕ)
    (rd : FPacs.RnData) (k : ZMod q) (iv : List ℕ) :
    FPacs.Rn.check O (FPacs.Rn.head O kp ekey id set rd k iv).2
      = .ok ((FPacs.Rn.head O kp ekey id set rd k iv).2.hash O) := by
  unfold FPacs.Rn.check
  have hver : FPacs.ExtSignature.verify O
      (FPacs.Rn.head O kp ekey id set rd k iv).2.sig
      [(FPacs.Rn.head O kp ekey id set rd k iv).2.hash O] = true := by
    show FPacs.ExtSignature.verify O
      (FPacs.ExtSignature.sign O kp.s kp.key _) _ = true
    rw [hkp]
    have hh : (FPacs.Rn.head O kp ekey id set rd k iv).2.hash O
        = O.hash256 (id ++ set
            ++ ((FPacs.RnEncData.new O ekey id set rd k iv).2.to_vec O)) := by
      rfl
    rw [hh]
    exact ext_sign_verify_ok O kp.s _
  simp [hver]

/-- Shared helper: a tail record built by `Rn::tail` with a matching key
pair passes `check`, returning its hash. -/
theorem check_tail_ok {q : ℕ} (O : FPacs.Oracle q) (kp : FPacs.KeyPair q)
    (hkp : kp.key = kp.s * FPacs.G q) (ekey : ZMod q) (hprev id set : List ℕ)
    (rd : FPacs.RnData) (k : ZMod q) (iv : List ℕ) :
    FPacs.Rn.check O (FPacs.Rn.tail O kp ekey hprev id set rd k iv).2
      = .ok ((FPacs.Rn.tail O kp ekey hprev id set rd k iv).2.hash O) := by
  unfold FPacs.Rn.check
  have hver : FPacs.ExtSignature.verify O
      (FPacs.Rn.tail O kp ekey hprev id set rd k iv).2.sig
      [(FPacs.Rn.tail O kp ekey hprev id set rd k iv).2.hash O] = true := by
    show FPacs.ExtSignature.verify O
      (FPacs.ExtSignature.sign O kp.s kp.key _) _ = true
    rw [hkp]
    have hh : (FPacs.Rn.tail O kp ekey hprev id set rd k iv).2.hash O
        = O.hash256 (hprev
            ++ ((FPacs.RnEncData.new O ekey id set rd k iv).2.to_vec O)) := by
      rfl
    rw [hh]
    exact ext_sign_verify_ok O kp.s _
  simp [hver]

/-- The per-record inputs of a chain build: the ephemeral DH scalar `k`
and AES IV drawn inside the record constructor, plus the file reference of
the payload. -/
structure RecordSeed (q : ℕ) where
  k : ZMod q
  iv : List ℕ
  file : FPacs.RnFileRef

/-- Appending tail records as the benchmark driver does (main.rs): each
tail is built with `hprev := chain.lhash`, the chain's `id`/`set`, and a
payload carrying the previous record's `LambdaKey`, then pushed. -/
def buildTails {q : ℕ} (O : FPacs.Oracle q) (kp : FPacs.KeyPair q)
    (ekey : ZMod q) (id set : List ℕ) :
    List (RecordSeed q) → FPacs.LambdaKey → FPacs.RnChain q →
    Except FPacs.RnErr (FPacs.RnChain q)
  | [], _, c => .ok c
  | s :: rest, lam, c =>
    match FPacs.RnChain.push O c
        (FPacs.Rn.tail O kp ekey c.lhash id set ⟨some lam, s.file⟩ s.k s.iv).2 with
    | (_, .error e) => .error e
    | (c', .ok _) => buildTails O kp ekey id set rest
        (FPacs.Rn.tail O kp ekey c.lhash id set ⟨some lam, s.file⟩ s.k s.iv).1 c'

/-- A chain built via `Rn::head`/`RnChain::new` followed by zero or more
`Rn::tail`/`RnChain::push`, with each tail's payload carrying its
predecessor's `LambdaKey` as `lambda_prev`. -/
def buildChain {q : ℕ} (O : FPacs.Oracle q) (kp : FPacs.KeyPair q)
    (ekey : ZMod q) (id set : List ℕ) (s0 : RecordSeed q)
    (ss : List (RecordSeed q)) : Except FPacs.RnErr (FPacs.RnChain q) :=
  let r0 := FPacs.Rn.head O kp ekey id set ⟨none, s0.file⟩ s0.k s0.iv
  match FPacs.RnChain.new O r0.2 with
  | .error e => .error e
  | .ok c0 => buildTails O kp ekey id set ss r0.1 c0

/-- Build invariant: pushing seed records onto a chain whose reverse walk
already recovers `fs` succeeds and extends the walk by the new files. -/
theorem buildTails_spec {q : ℕ} (O : FPacs.Oracle q)
    (hdec : ∀ key iv m, O.dec key (O.enc key iv m) = some m)
    (hdeser : ∀ d, O.deser (O.ser d) = some d)
    (kp : FPacs.KeyPair q) (hkp : kp.key = kp.s * FPacs.G q)
    (e : ZMod q) (id set : List ℕ) :
    ∀ (ss : List (RecordSeed q)) (c : FPacs.RnChain q) (lam : FPacs.LambdaKey)
      (fs : List FPacs.RnFileRef),
      c.chain ≠ [] →
      lam = FPacs.LambdaKey.new O (O.pointBytes (e * c.kn)) id set →
      FPacs.recoverLoop O c.chain.reverse (some lam) = .ok fs →
      ∃ C : FPacs.RnChain q,
        buildTails O kp (e * FPacs.G q) id set ss lam c = .ok C ∧
        C.chain.head? = c.chain.head? ∧
        C.chain ≠ [] ∧
        FPacs.recoverLoop O C.chain.reverse
          (some (FPacs.LambdaKey.new O (O.pointBytes (e * C.kn)) id set))
          = .ok ((ss.map (fun s => s.file)).reverse ++ fs) := by
  intro ss
  induction ss with
  | nil =>
    intro c lam fs hne hlam hwalk
    refine ⟨c, rfl, rfl, hne, ?_⟩
    rw [← hlam, hwalk]
    simp
  | cons s rest ih =>
    intro c lam fs hne hlam hwalk
    have hcheck := check_tail_ok O kp hkp (e * FPacs.G q) c.lhash id set
      ⟨some lam, s.file⟩ s.k s.iv
    have hpush : FPacs.RnChain.push O c
        (FPacs.Rn.tail O kp (e * FPacs.G q) c.lhash id set
          ⟨some lam, s.file⟩ s.k s.iv).2
        = (⟨(FPacs.Rn.tail O kp (e * FPacs.G q) c.lhash id set
              ⟨some lam, s.file⟩ s.k s.iv).2.hash O,
            c.chain ++ [(FPacs.Rn.tail O kp (e * FPacs.G q) c.lhash id set
              ⟨some lam, s.file⟩ s.k s.iv).2]⟩, .ok ()) := by
      unfold FPacs.RnChain.push
      rw [hcheck]
      have hh : (FPacs.Rn.tail O kp (e * FPacs.G q) c.lhash id set
          ⟨some lam, s.file⟩ s.k s.iv).2.hprev = some c.lhash := rfl
      rw [hh]
      simp
    have hc'ne : (c.chain ++ [(FPacs.Rn.tail O kp (e * FPacs.G q) c.lhash id set
        ⟨some lam, s.file⟩ s.k s.iv).2]) ≠ [] := by
      simp
    have hkn' : (FPacs.RnChain.mk
          ((FPacs.Rn.tail O kp (e * FPacs.G q) c.lhash id set
            ⟨some lam, s.file⟩ s.k s.iv).2.hash O)
          (c.chain ++ [(FPacs.Rn.tail O kp (e * FPacs.G q) c.lhash id set
            ⟨some lam, s.file⟩ s.k s.iv).2])).kn = s.k * FPacs.G q := by
      unfold FPacs.RnChain.kn
      simp [List.getLastD_concat]
      rfl
    have hlam' : (FPacs.Rn.tail O kp (e * FPacs.G q) c.lhash id set
          ⟨some lam, s.file⟩ s.k s.iv).1
        = FPacs.LambdaKey.new O (O.pointBytes (e * (s.k * FPacs.G q))) id set := by
      have harg : s.k * (e * FPacs.G q) = e * (s.k * FPacs.G q) := by ring
      show FPacs.LambdaKey.new O (O.pointBytes (s.k * (e * FPacs.G q))) id set = _
      rw [harg]
    have hdd : FPacs.RnEncData.decryptData O
        (FPacs.Rn.tail O kp (e * FPacs.G q) c.lhash id set
          ⟨some lam, s.file⟩ s.k s.iv).2.data
        (FPacs.Rn.tail O kp (e * FPacs.G q) c.lhash id set
          ⟨some lam, s.file⟩ s.k s.iv).1
        = .ok ⟨some lam, s.file⟩ :=
      decryptData_new O hdec hdeser (e * FPacs.G q) id set ⟨some lam, s.file⟩ s.k s.iv
    have hwalk' : FPacs.recoverLoop O
        (c.chain ++ [(FPacs.Rn.tail O kp (e * FPacs.G q) c.lhash id set
          ⟨some lam, s.file⟩ s.k s.iv).2]).reverse
        (some (FPacs.Rn.tail O kp (e * FPacs.G q) c.lhash id set
          ⟨some lam, s.file⟩ s.k s.iv).1)
        = .ok (s.file :: fs) := by
      rw [List.reverse_append]
      simp only [List.reverse_cons, List.reverse_nil, List.nil_append,
        List.singleton_append]
      simp only [FPacs.recoverLoop, hdd, hwalk]
    obtain ⟨C, hbuild, hhead, hCne, hwalkC⟩ := ih
      ⟨(FPacs.Rn.tail O kp (e * FPacs.G q) c.lhash id set
          ⟨some lam, s.file⟩ s.k s.iv).2.hash O,
        c.chain ++ [(FPacs.Rn.tail O kp (e * FPacs.G q) c.lhash id set
          ⟨some lam, s.file⟩ s.k s.iv).2]⟩
      (FPacs.Rn.tail O kp (e * FPacs.G q) c.lhash id set
        ⟨some lam, s.file⟩ s.k s.iv).1
      (s.file :: fs) hc'ne (by rw [hlam', hkn']) hwalk'
    refine ⟨C, ?_, ?_, hCne, ?_⟩
    · show buildTails O kp (e * FPacs.G q) id set (s :: rest) lam c = .ok C
      unfold buildTails
      rw [hpush]
      exact hbuild
    · rw [hhead]
      obtain ⟨h0, t0, hc⟩ := List.exists_cons_of_ne_nil hne
      rw [hc]
      simp
    · rw [hwalkC]
      simp

/-- The share abscissae `1..n` are pairwise distinct in the scalar field
whenever `n < q` (always true in the source, where `q` is the 253-bit
group order and indices are `u32`). -/
theorem range1_cast_nodup {q : ℕ} [NeZero q] (n : ℕ) (hn : n < q) :
    (((List.range n).map (fun j => j + 1)).map (fun i : ℕ => (i : ZMod q))).Nodup := by
  rw [List.map_map]
  refine List.Nodup.map_on ?_ (List.nodup_range n)
  intro x hx y hy hxy
  have hx' : x + 1 < q := by
    have := List.mem_range.mp hx
    omega
  have hy' : y + 1 < q := by
    have := List.mem_range.mp hy
    omega
  have hval : ((x + 1 : ℕ) : ZMod q).val = ((y + 1 : ℕ) : ZMod q).val := by
    have hxy' : ((x + 1 : ℕ) : ZMod q) = ((y + 1 : ℕ) : ZMod q) := by
      simpa [Function.comp] using hxy
    rw [hxy']
  rw [ZMod.val_cast_of_lt hx', ZMod.val_cast_of_lt hy'] at hval
  omega

theorem shares_eq_map {q : ℕ} (a : List (ZMod q)) (n : ℕ) :
    FPacs.Polynomial.shares a n
      = ((List.range n).map (fun j => j + 1)).map
          (fun i : ℕ => (⟨i, FPacs.Polynomial.evaluate a (i : ZMod q)⟩ : FPacs.Share q)) := by
  unfold FPacs.Polynomial.shares
  rw [List.map_map]
  rfl

/-- Shared helper: recovering from all `n` shares of a polynomial with
coefficient list `a` (`n ≥ deg+1`, `n < q`) returns the secret `a₀`. -/
theorem shares_recover {q : ℕ} [Fact (Nat.Prime q)] (a : List (ZMod q)) (n : ℕ)
    (hq : n < q) (hlen : a.length ≤ n) :
    FPacs.ShareVector.recover (FPacs.Polynomial.shares a n) = a.headD 0 := by
  rw [shares_eq_map]
  exact recover_map_eval a ((List.range n).map (fun j => j + 1))
    (range1_cast_nodup n hq) (by simpa using hlen)

/-- Shared helper (full recovery): a chain built from a head and tails
seeds recovers, from the Lagrange-combined lifted shares of the master
secret, exactly the original file references head-first. -/
theorem buildChain_full_recovery {q : ℕ} [Fact (Nat.Prime q)] (O : FPacs.Oracle q)
    (hdec : ∀ key iv m, O.dec key (O.enc key iv m) = some m)
    (hdeser : ∀ d, O.deser (O.ser d) = some d)
    (srcSecret e : ZMod q) (t n : ℕ) (coefs : List (ZMod q))
    (hcoefs : coefs.length = t) (hn : t + 1 ≤ n) (hq : n < q)
    (id set : List ℕ) (s0 : RecordSeed q) (ss : List (RecordSeed q)) :
    ∃ C : FPacs.RnChain q,
      buildChain O (FPacs.KeyPair.mk' q srcSecret) (e * FPacs.G q) id set s0 ss
        = .ok C ∧
      FPacs.RnChain.recover O C
        (O.pointBytes (FPacs.RistrettoShareVector.recover
          (FPacs.ShareVector.mulPoint
            (FPacs.Polynomial.shares (e :: coefs) n) C.kn)))
        = .ok (s0.file :: ss.map (fun s => s.file)) := by
  have hkp : (FPacs.KeyPair.mk' q srcSecret).key
      = (FPacs.KeyPair.mk' q srcSecret).s * FPacs.G q := rfl
  -- the head record and the one-record chain
  have hchk := check_head_ok O (FPacs.KeyPair.mk' q srcSecret) hkp
    (e * FPacs.G q) id set ⟨none, s0.file⟩ s0.k s0.iv
  have hnew : FPacs.RnChain.new O
      (FPacs.Rn.head O (FPacs.KeyPair.mk' q srcSecret) (e * FPacs.G q) id set
        ⟨none, s0.file⟩ s0.k s0.iv).2
      = .ok ⟨(FPacs.Rn.head O (FPacs.KeyPair.mk' q srcSecret) (e * FPacs.G q)
          id set ⟨none, s0.file⟩ s0.k s0.iv).2.hash O,
        [(FPacs.Rn.head O (FPacs.KeyPair.mk' q srcSecret) (e * FPacs.G q)
          id set ⟨none, s0.file⟩ s0.k s0.iv).2]⟩ := by
    unfold FPacs.RnChain.new
    rw [hchk]
    rfl
  have hdd0 : FPacs.RnEncData.decryptData O
      (FPacs.Rn.head O (FPacs.KeyPair.mk' q srcSecret) (e * FPacs.G q) id set
        ⟨none, s0.file⟩ s0.k s0.iv).2.data
      (FPacs.Rn.head O (FPacs.KeyPair.mk' q srcSecret) (e * FPacs.G q) id set
        ⟨none, s0.file⟩ s0.k s0.iv).1
      = .ok ⟨none, s0.file⟩ :=
    decryptData_new O hdec hdeser (e * FPacs.G q) id set ⟨none, s0.file⟩ s0.k s0.iv
  have hwalk0 : FPacs.recoverLoop O
      ([(FPacs.Rn.head O (FPacs.KeyPair.mk' q srcSecret) (e * FPacs.G q) id set
        ⟨none, s0.file⟩ s0.k s0.iv).2]).reverse
      (some (FPacs.Rn.head O (FPacs.KeyPair.mk' q srcSecret) (e * FPacs.G q)
        id set ⟨none, s0.file⟩ s0.k s0.iv).1)
      = .ok [s0.file] := by
    simp only [List.reverse_singleton]
    simp only [FPacs.recoverLoop, hdd0]
  have hlam0 : (FPacs.Rn.head O (FPacs.KeyPair.mk' q srcSecret) (e * FPacs.G q)
        id set ⟨none, s0.file⟩ s0.k s0.iv).1
      = FPacs.LambdaKey.new O
          (O.pointBytes (e * (FPacs.RnChain.mk
            ((FPacs.Rn.head O (FPacs.KeyPair.mk' q srcSecret) (e * FPacs.G q)
              id set ⟨none, s0.file⟩ s0.k s0.iv).2.hash O)
            [(FPacs.Rn.head O (FPacs.KeyPair.mk' q srcSecret) (e * FPacs.G q)
              id set ⟨none, s0.file⟩ s0.k s0.iv).2]).kn)) id set := by
    have harg : s0.k * (e * FPacs.G q) = e * (s0.k * FPacs.G q) := by ring
    show FPacs.LambdaKey.new O (O.pointBytes (s0.k * (e * FPacs.G q))) id set = _
    rw [harg]
    rfl
  obtain ⟨C, hbuild, hhead, hCne, hwalkC⟩ :=
    buildTails_spec O hdec hdeser (FPacs.KeyPair.mk' q srcSecret) hkp e id set
      ss
      ⟨(FPacs.Rn.head O (FPacs.KeyPair.mk' q srcSecret) (e * FPacs.G q) id set
          ⟨none, s0.file⟩ s0.k s0.iv).2.hash O,
        [(FPacs.Rn.head O (FPacs.KeyPair.mk' q srcSecret) (e * FPacs.G q) id set
          ⟨none, s0.file⟩ s0.k s0.iv).2]⟩
      (FPacs.Rn.head O (FPacs.KeyPair.mk' q srcSecret) (e * FPacs.G q) id set
        ⟨none, s0.file⟩ s0.k s0.iv).1
      [s0.file] (by simp) hlam0 hwalk0
  refine ⟨C, ?_, ?_⟩
  · simp only [buildChain, hnew]
    exact hbuild
  · -- the combined lifted shares give α = e · C.kn
    have halpha : FPacs.RistrettoShareVector.recover
        (FPacs.ShareVector.mulPoint (FPacs.Polynomial.shares (e :: coefs) n) C.kn)
        = e * C.kn := by
      rw [ristretto_recover_mulPoint, shares_recover (e :: coefs) n hq (by
        simp [hcoefs]
        omega)]
      rfl
    -- the head of the built chain
    have hheadC : C.chain.head?
        = some (FPacs.Rn.head O (FPacs.KeyPair.mk' q srcSecret) (e * FPacs.G q)
            id set ⟨none, s0.file⟩ s0.k s0.iv).2 := by
      rw [hhead]
      rfl
    unfold FPacs.RnChain.recover
    rw [hheadC, halpha]
    have hid : (FPacs.Rn.head O (FPacs.KeyPair.mk' q srcSecret) (e * FPacs.G q)
        id set ⟨none, s0.file⟩ s0.k s0.iv).2.id = some id := rfl
    have hset : (FPacs.Rn.head O (FPacs.KeyPair.mk' q srcSecret) (e * FPacs.G q)
        id set ⟨none, s0.file⟩ s0.k s0.iv).2.set = some set := rfl
    simp only [hid, hset]
    rw [hwalkC]
    simp

/-! ### structs.rs `ReadUntil`: look-ahead reader with a reserved tail -/

/-- The state of a `ReadUntil<R>` over a byte-slice source: the unread
input, the valid prefix `buffer[..end]` of the internal buffer, and the
`remainder` reserve.  The buffer allocated by `new` has length
`1024 + remainder`, so a refill can add at most
`1024 + remainder − end` bytes. -/
structure RUState where
  input : List ℕ
  buffer : List ℕ
  remainder : ℕ
deriving DecidableEq

/-- One `self.from.read(&mut self.buffer[self.end..])` against a slice
source: move `min(capacity − end, |input|)` bytes into the buffer. -/
def RUState.refill (st : RUState) : RUState :=
  ⟨st.input.drop (1024 + st.remainder - st.buffer.length),
   st.buffer ++ st.input.take (1024 + st.remainder - st.buffer.length),
   st.remainder⟩

/-- structs.rs `ReadUntil::read` with caller buffer size `bufLen`,
returning the bytes written to the caller's buffer and the state after
the call.  The loop refills, errors if fewer than `remainder` bytes are
available, emits up to `buffer.len − remainder` bytes from the front and
rotates.  Structured on a fuel argument (one unit per loop iteration;
`ruRead` is always invoked with more fuel than the iteration count, so
the `0` case is unreachable). -/
def ruRead (bufLen : ℕ) : ℕ → ℕ → List ℕ → RUState →
    Except FPacs.RnErr (List ℕ × RUState)
  | 0, _, _, _ => .error .io
  | fuel + 1, total, acc, st =>
    if total = bufLen then .ok (acc, st)
    else
      let st1 := st.refill
      if st1.buffer.length < st1.remainder then .error .io
      else
        let top := st1.buffer.length - st1.remainder
        if top = 0 then .ok (acc, st1)
        else
          let moved := min top (bufLen - total)
          ruRead bufLen fuel (total + moved) (acc ++ st1.buffer.take moved)
            ⟨st1.input, st1.buffer.drop moved, st1.remainder⟩

/-- `std::io::copy` over a `ReadUntil`: repeatedly `read` with an 8192-byte
buffer (the standard library's default) until a read returns no bytes,
concatenating everything emitted. -/
def ruCopy : ℕ → List ℕ → RUState → Except FPacs.RnErr (List ℕ × RUState)
  | 0, _, _ => .error .io
  | fuel + 1, acc, st =>
    match ruRead 8192 (st.input.length + st.buffer.length + 1) 0 [] st with
    | .error e => .error e
    | .ok (bytes, st') =>
      if bytes.isEmpty then .ok (acc, st')
      else ruCopy fuel (acc ++ bytes) st'

/-- Reading a fresh `ReadUntil::new(input, resv)` to exhaustion: the bytes
delivered to the consumer, and the bytes then available via
`remainder()` (the final `buffer[..end]`). -/
def readUntilDrain (input : List ℕ) (resv : ℕ) :
    Except FPacs.RnErr (List ℕ × List ℕ) :=
  match ruCopy (input.length + 2) [] ⟨input, [], resv⟩ with
  | .error e => .error e
  | .ok (emitted, st) => .ok (emitted, st.buffer)


/-- One step of `ruRead` unfolded (definitional; `st.refill.remainder`
reduces to `st.remainder`). -/
theorem ruRead_succ (bufLen fuel total : ℕ) (acc : List ℕ) (st : RUState) :
    ruRead bufLen (fuel + 1) total acc st
      = (if total = bufLen then .ok (acc, st)
        else if (st.refill).buffer.length < st.remainder then
          .error .io
        else if (st.refill).buffer.length - st.remainder = 0 then
          .ok (acc, st.refill)
        else
          ruRead bufLen fuel
            (total + min ((st.refill).buffer.length - st.remainder)
              (bufLen - total))
            (acc ++ (st.refill).buffer.take
              (min ((st.refill).buffer.length - st.remainder)
                (bufLen - total)))
            ⟨(st.refill).input,
             (st.refill).buffer.drop
               (min ((st.refill).buffer.length - st.remainder)
                 (bufLen - total)),
             st.remainder⟩) := rfl

/-- Contract of one `ReadUntil::read` call over a slice source: with
enough fuel, the call fails exactly when fewer than `remainder` bytes are
available in total (and the caller still wants bytes); otherwise it
removes `min(bufLen − total, available − remainder)` bytes from the front
of `buffer ++ input` and appends them to the caller's buffer, stopping
either because the caller's buffer is full or with all remaining bytes
(exactly `remainder` many) in its internal buffer. -/
theorem ruRead_spec (bufLen : ℕ) :
    ∀ (fuel total : ℕ) (acc : List ℕ) (st : RUState),
    st.input.length + st.buffer.length < fuel →
    st.buffer.length ≤ 1024 + st.remainder →
    total ≤ bufLen →
    (if st.remainder ≤ st.buffer.length + st.input.length ∨ total = bufLen then
      ∃ st' : RUState,
        ruRead bufLen fuel total acc st
          = .ok (acc ++ (st.buffer ++ st.input).take
              (min (bufLen - total)
                (st.buffer.length + st.input.length - st.remainder)), st') ∧
        st'.buffer ++ st'.input
          = (st.buffer ++ st.input).drop
              (min (bufLen - total)
                (st.buffer.length + st.input.length - st.remainder)) ∧
        st'.remainder = st.remainder ∧
        st'.buffer.length ≤ 1024 + st.remainder ∧
        (total + min (bufLen - total)
            (st.buffer.length + st.input.length - st.remainder) = bufLen
          ∨ st'.input = [])
    else ruRead bufLen fuel total acc st = .error .io) := by
  intro fuel
  induction fuel with
  | zero =>
    intro total acc st hfuel hbuf htot
    omega
  | succ fuel ih =>
    intro total acc st hfuel hbuf htot
    have hrB : (st.refill).buffer
        = st.buffer ++ st.input.take (1024 + st.remainder - st.buffer.length) :=
      rfl
    have hrI : (st.refill).input
        = st.input.drop (1024 + st.remainder - st.buffer.length) := rfl
    have hsum : (st.refill).buffer ++ (st.refill).input = st.buffer ++ st.input := by
      rw [hrB, hrI, List.append_assoc, List.take_append_drop]
    have hrlen : (st.refill).buffer.length
        = st.buffer.length
          + min (1024 + st.remainder - st.buffer.length) st.input.length := by
      rw [hrB, List.length_append, List.length_take]
    have hrIlen : (st.refill).input.length
        = st.input.length - (1024 + st.remainder - st.buffer.length) := by
      rw [hrI, List.length_drop]
    by_cases htotal : total = bufLen
    · rw [if_pos (Or.inr htotal)]
      have hmin0 : min (bufLen - total)
          (st.buffer.length + st.input.length - st.remainder) = 0 := by
        omega
      refine ⟨st, ?_, ?_, rfl, hbuf, Or.inl (by omega)⟩
      · rw [ruRead_succ, if_pos htotal, hmin0]
        simp
      · rw [hmin0, List.drop_zero]
    · by_cases havail : st.remainder ≤ st.buffer.length + st.input.length
      · rw [if_pos (Or.inl havail)]
        have hnotlt : ¬ ((st.refill).buffer.length < st.remainder) := by
          omega
        by_cases htop : (st.refill).buffer.length - st.remainder = 0
        · -- all remaining bytes equal the reserve: stop, emitting nothing
          have havail_eq : st.buffer.length + st.input.length = st.remainder := by
            omega
          have hmin0 : min (bufLen - total)
              (st.buffer.length + st.input.length - st.remainder) = 0 := by
            omega
          refine ⟨st.refill, ?_, ?_, rfl, by omega, Or.inr ?_⟩
          · rw [ruRead_succ, if_neg htotal, if_neg hnotlt, if_pos htop, hmin0]
            simp
          · rw [hmin0, hsum]
            simp
          · rw [hrI]
            refine List.drop_eq_nil_of_le ?_
            omega
        · -- emit `moved` bytes from the refilled buffer and recurse
          have hmoved_le_buf :
              min ((st.refill).buffer.length - st.remainder)
                (bufLen - total) ≤ (st.refill).buffer.length := by
            omega
          have hst2fuel :
              (st.refill).input.length
                + ((st.refill).buffer.drop
                    (min ((st.refill).buffer.length - st.remainder)
                      (bufLen - total))).length < fuel := by
            rw [List.length_drop]
            omega
          have hst2buf :
              ((st.refill).buffer.drop
                (min ((st.refill).buffer.length - st.remainder)
                  (bufLen - total))).length ≤ 1024 + st.remainder := by
            rw [List.length_drop]
            omega
          have hst2tot :
              total + min ((st.refill).buffer.length - st.remainder)
                (bufLen - total) ≤ bufLen := by
            omega
          have ih' := ih
            (total + min ((st.refill).buffer.length - st.remainder)
              (bufLen - total))
            (acc ++ (st.refill).buffer.take
              (min ((st.refill).buffer.length - st.remainder)
                (bufLen - total)))
            ⟨(st.refill).input,
             (st.refill).buffer.drop
               (min ((st.refill).buffer.length - st.remainder)
                 (bufLen - total)),
             st.remainder⟩
            hst2fuel hst2buf hst2tot
          dsimp only at ih'
          have hcond2 : st.remainder
              ≤ ((st.refill).buffer.drop
                  (min ((st.refill).buffer.length - st.remainder)
                    (bufLen - total))).length
                + (st.refill).input.length := by
            rw [List.length_drop]
            omega
          rw [if_pos (Or.inl hcond2)] at ih'
          obtain ⟨st', hrun, hD, hrem, hbuf', hdisj⟩ := ih'
          have hDlen : (st.refill).buffer.length + (st.refill).input.length
              = st.buffer.length + st.input.length := by
            have hl := congrArg List.length hsum
            simp only [List.length_append] at hl
            omega
          have hsplit :
              min (bufLen - total)
                (st.buffer.length + st.input.length - st.remainder)
              = min ((st.refill).buffer.length - st.remainder)
                  (bufLen - total)
                + min
                  (bufLen - (total
                    + min ((st.refill).buffer.length - st.remainder)
                        (bufLen - total)))
                  (((st.refill).buffer.drop
                      (min ((st.refill).buffer.length - st.remainder)
                        (bufLen - total))).length
                    + (st.refill).input.length - st.remainder) := by
            rw [List.length_drop]
            omega
          have htake : (st.buffer ++ st.input).take
              (min (bufLen - total)
                (st.buffer.length + st.input.length - st.remainder))
              = (st.refill).buffer.take
                  (min ((st.refill).buffer.length - st.remainder)
                    (bufLen - total))
                ++ (((st.refill).buffer.drop
                    (min ((st.refill).buffer.length - st.remainder)
                      (bufLen - total)))
                  ++ (st.refill).input).take
                  (min
                    (bufLen - (total
                      + min ((st.refill).buffer.length - st.remainder)
                          (bufLen - total)))
                    (((st.refill).buffer.drop
                        (min ((st.refill).buffer.length - st.remainder)
                          (bufLen - total))).length
                      + (st.refill).input.length - st.remainder)) := by
            rw [hsplit, ← hsum, List.take_add]
            congr 1
            · exact List.take_append_of_le_length hmoved_le_buf
            · congr 1
              exact List.drop_append_of_le_length hmoved_le_buf
          have hdropm : ((st.refill).buffer.drop
                (min ((st.refill).buffer.length - st.remainder)
                  (bufLen - total))) ++ (st.refill).input
              = (st.buffer ++ st.input).drop
                  (min ((st.refill).buffer.length - st.remainder)
                    (bufLen - total)) := by
            rw [← hsum]
            exact (List.drop_append_of_le_length hmoved_le_buf).symm
          refine ⟨st', ?_, ?_, hrem, hbuf', ?_⟩
          · rw [ruRead_succ, if_neg htotal, if_neg hnotlt, if_neg htop, hrun,
              htake, List.append_assoc]
          · rw [hD, hdropm, List.drop_drop, ← hsplit]
          · rcases hdisj with h | h
            · left
              omega
            · right
              exact h
      · -- fewer than `remainder` bytes in total: the call errors
        rw [if_neg (by push_neg; exact ⟨by omega, htotal⟩)]
        have hlt : (st.refill).buffer.length < st.remainder := by
          omega
        rw [ruRead_succ, if_neg htotal, if_pos hlt]

/-- One step of `ruCopy` unfolded (definitional). -/
theorem ruCopy_succ (fuel : ℕ) (acc : List ℕ) (st : RUState) :
    ruCopy (fuel + 1) acc st
      = (match ruRead 8192 (st.input.length + st.buffer.length + 1) 0 [] st with
        | .error e => .error e
        | .ok (bytes, st') =>
          if bytes.isEmpty then .ok (acc, st')
          else ruCopy fuel (acc ++ bytes) st') := rfl

/-- Contract of the `io::copy` loop over `ReadUntil`: with at least
`remainder` bytes available it consumes everything but the reserve, in
order, and ends with exactly the reserve in the internal buffer. -/
theorem ruCopy_spec :
    ∀ (fuel : ℕ) (acc : List ℕ) (st : RUState),
    st.buffer.length + st.input.length - st.remainder < fuel →
    st.buffer.length ≤ 1024 + st.remainder →
    st.remainder ≤ st.buffer.length + st.input.length →
    ∃ st' : RUState,
      ruCopy fuel acc st
        = .ok (acc ++ (st.buffer ++ st.input).take
            (st.buffer.length + st.input.length - st.remainder), st') ∧
      st'.buffer = (st.buffer ++ st.input).drop
          (st.buffer.length + st.input.length - st.remainder) := by
  intro fuel
  induction fuel with
  | zero =>
    intro acc st hfuel hbuf hrem
    omega
  | succ fuel ih =>
    intro acc st hfuel hbuf hrem
    have hread := ruRead_spec 8192 (st.input.length + st.buffer.length + 1) 0 []
      st (by omega) hbuf (by omega)
    rw [if_pos (Or.inl (by omega))] at hread
    obtain ⟨st1, hrun, hD, hrem1, hbuf1, hdisj⟩ := hread
    simp only [List.nil_append, Nat.sub_zero] at hrun hD hdisj
    have hDlen1 : st1.buffer.length + st1.input.length
        = st.buffer.length + st.input.length
          - min 8192 (st.buffer.length + st.input.length - st.remainder) := by
      have hl := congrArg List.length hD
      simp only [List.length_append, List.length_drop] at hl
      omega
    by_cases hm : st.buffer.length + st.input.length - st.remainder = 0
    · -- nothing beyond the reserve: the read returns no bytes; stop
      have hmin0 : min 8192 (st.buffer.length + st.input.length
          - st.remainder) = 0 := by
        omega
      rw [hmin0, List.take_zero] at hrun
      refine ⟨st1, ?_, ?_⟩
      · rw [ruCopy_succ, hrun]
        simp [hm]
      · rcases hdisj with h | h
        · rw [hmin0] at h
          omega
        · rw [h, List.append_nil, hmin0, List.drop_zero] at hD
          rw [hm, List.drop_zero, hD]
    · -- at least one byte beyond the reserve was emitted; recurse
      have hne : ((st.buffer ++ st.input).take
          (min 8192 (st.buffer.length + st.input.length
            - st.remainder))).isEmpty = false := by
        cases hcase : (st.buffer ++ st.input).take
            (min 8192 (st.buffer.length + st.input.length - st.remainder)) with
        | nil =>
          have hl := congrArg List.length hcase
          simp only [List.length_take, List.length_append, List.length_nil] at hl
          omega
        | cons a l => rfl
      obtain ⟨st'', hrun2, hbuf2⟩ := ih
        (acc ++ (st.buffer ++ st.input).take
          (min 8192 (st.buffer.length + st.input.length - st.remainder)))
        st1
        (by rw [hDlen1, hrem1]; omega)
        (by rw [hrem1]; exact hbuf1)
        (by rw [hDlen1, hrem1]; omega)
      refine ⟨st'', ?_, ?_⟩
      · rw [ruCopy_succ, hrun]
        simp only [hne, Bool.false_eq_true, if_false]
        rw [hrun2, hD, hDlen1, hrem1]
        congr 1
        congr 1
        rw [List.append_assoc]
        congr 1
        rw [← List.take_add]
        congr 1
        omega
      · rw [hbuf2, hD, hDlen1, hrem1, List.drop_drop]
        congr 1
        omega

/-- Contract of draining a fresh `ReadUntil::new(input, resv)`: succeeds
iff `resv ≤ |input|`, emitting exactly the first `|input| − resv` bytes in
order and retaining the last `resv` bytes for `remainder()`. -/
theorem readUntilDrain_spec (input : List ℕ) (resv : ℕ) :
    readUntilDrain input resv
      = if resv ≤ input.length then
          .ok (input.take (input.length - resv), input.drop (input.length - resv))
        else .error .io := by
  by_cases h : resv ≤ input.length
  · rw [if_pos h]
    obtain ⟨st', hrun, hbuf⟩ := ruCopy_spec (input.length + 2) []
      ⟨input, [], resv⟩ (by simp; omega) (by simp) (by simp; omega)
    simp only [List.nil_append, List.length_nil, Nat.zero_add] at hrun hbuf
    unfold readUntilDrain
    rw [hrun]
    dsimp only
    rw [hbuf]
  · rw [if_neg h]
    have hread := ruRead_spec 8192 (input.length + 0 + 1) 0 [] ⟨input, [], resv⟩
      (by simp) (by simp) (by omega)
    rw [if_neg (by
      push_neg
      refine ⟨?_, ?_⟩
      · simp
        omega
      · omega)] at hread
    unfold readUntilDrain
    have h2 : input.length + 2 = (input.length + 1) + 1 := rfl
    rw [h2, ruCopy_succ]
    simp only [List.length_nil, Nat.add_zero] at hread ⊢
    rw [hread]

/-! ### structs.rs `FnAdaptor`: file save/load -/

namespace FPacs

/-- structs.rs `FnAdaptor::save`: stream the plaintext through the AES
encryptor (whose output, IV included, is tee'd into the SHA-256 hasher on
its way to `to`), then sign the ciphertext hash and append the 136-byte
bincode `ExtSignature`.  The cipher's fresh IV is an explicit argument. -/
def FnAdaptor.save {q : ℕ} (O : Oracle q) (keyp : KeyPair q)
    (dn iv pt : List ℕ) : List ℕ :=
  O.enc dn iv pt
    ++ O.serSig (ExtSignature.sign O keyp.s keyp.key
        [O.hash256 (O.enc dn iv pt)])

/-- structs.rs `FnAdaptor::load`: a `ReadUntil` with a 136-byte reserve
feeds the decryptor (hashing the ciphertext on the way) until EOF; the
retained bytes are deserialized as an `ExtSignature` and verified against
the ciphertext hash. -/
def FnAdaptor.load {q : ℕ} (O : Oracle q) (dn : List ℕ) (input : List ℕ) :
    Except RnErr (List ℕ) :=
  match readUntilDrain input 136 with
  | .error _ => .error .io
  | .ok (ct, bsig) =>
    match O.dec dn ct with
    | none => .error .decodeFail
    | some pt =>
      match O.deserSig bsig with
      | none => .error .deserFail
      | some sg =>
        if sg.verify O [O.hash256 ct] then .ok pt else .error .badSig

end FPacs

/-- Shared helper (file round trip): `load(dn, save(kp, dn, P)) = P`,
given the cipher round-trip law and the 136-byte signature codec laws. -/
theorem fnAdaptor_roundtrip {q : ℕ} (O : FPacs.Oracle q)
    (hdec : ∀ key iv m, O.dec key (O.enc key iv m) = some m)
    (hsiglen : ∀ sg : FPacs.ExtSignature q, (O.serSig sg).length = 136)
    (hdesersig : ∀ sg : FPacs.ExtSignature q, O.deserSig (O.serSig sg) = some sg)
    (s : ZMod q) (dn iv pt : List ℕ) :
    FPacs.FnAdaptor.load O dn
      (FPacs.FnAdaptor.save O (FPacs.KeyPair.mk' q s) dn iv pt) = .ok pt := by
  unfold FPacs.FnAdaptor.save FPacs.FnAdaptor.load
  have hlen : (O.enc dn iv pt
      ++ O.serSig (FPacs.ExtSignature.sign O (FPacs.KeyPair.mk' q s).s
          (FPacs.KeyPair.mk' q s).key
          [O.hash256 (O.enc dn iv pt)])).length
      = (O.enc dn iv pt).length + 136 := by
    rw [List.length_append, hsiglen]
  have hsplit := readUntilDrain_spec
    (O.enc dn iv pt
      ++ O.serSig (FPacs.ExtSignature.sign O (FPacs.KeyPair.mk' q s).s
          (FPacs.KeyPair.mk' q s).key
          [O.hash256 (O.enc dn iv pt)])) 136
  rw [if_pos (by omega), hlen] at hsplit
  have htk : (O.enc dn iv pt
      ++ O.serSig (FPacs.ExtSignature.sign O (FPacs.KeyPair.mk' q s).s
          (FPacs.KeyPair.mk' q s).key
          [O.hash256 (O.enc dn iv pt)])).take
        ((O.enc dn iv pt).length + 136 - 136)
      = O.enc dn iv pt := by
    rw [Nat.add_sub_cancel,
      List.take_append_of_le_length (le_refl _), List.take_length]
  have hdr : (O.enc dn iv pt
      ++ O.serSig (FPacs.ExtSignature.sign O (FPacs.KeyPair.mk' q s).s
          (FPacs.KeyPair.mk' q s).key
          [O.hash256 (O.enc dn iv pt)])).drop
        ((O.enc dn iv pt).length + 136 - 136)
      = O.serSig (FPacs.ExtSignature.sign O (FPacs.KeyPair.mk' q s).s
          (FPacs.KeyPair.mk' q s).key
          [O.hash256 (O.enc dn iv pt)]) := by
    rw [Nat.add_sub_cancel,
      List.drop_append_of_le_length (le_refl _), List.drop_length,
      List.nil_append]
  rw [hsplit, htk, hdr]
  dsimp only
  rw [hdec, hdesersig]
  have hver : FPacs.ExtSignature.verify O
      (FPacs.ExtSignature.sign O (FPacs.KeyPair.mk' q s).s
        (FPacs.KeyPair.mk' q s).key [O.hash256 (O.enc dn iv pt)])
      [O.hash256 (O.enc dn iv pt)] = true := by
    show FPacs.ExtSignature.verify O
      (FPacs.ExtSignature.sign O s (s * FPacs.G q) _) _ = true
    exact ext_sign_verify_ok O s _
  dsimp only
  rw [hver]
  simp

/-- Shared helper: full characterization of a successful
`RnChain::recover`.  Success says nothing about signatures, and nothing
about the head payload's `lambda_prev` (which the walk discards). -/
theorem recover_ok_iff {q : ℕ} (O : FPacs.Oracle q) (C : FPacs.RnChain q)
    (alphaBytes : List ℕ) (fs : List FPacs.RnFileRef) :
    FPacs.RnChain.recover O C alphaBytes = .ok fs
      ↔ ∃ (h : FPacs.Rn q) (rest : List (FPacs.Rn q)) (id set : List ℕ),
          C.chain = h :: rest ∧ h.id = some id ∧ h.set = some set ∧
          WalksOk O C.chain.reverse
            (some (FPacs.LambdaKey.new O alphaBytes id set)) fs.reverse := by
  cases hc : C.chain with
  | nil =>
    constructor
    · intro hcon
      unfold FPacs.RnChain.recover at hcon
      rw [hc] at hcon
      simp at hcon
    · rintro ⟨h, rest, id, set, heq, -⟩
      cases heq
  | cons h rest =>
    unfold FPacs.RnChain.recover
    rw [hc]
    simp only [List.head?_cons]
    cases hid : h.id with
    | none =>
      constructor
      · intro hcon
        simp at hcon
      · rintro ⟨h', rest', id', set', heq, hid', -, -⟩
        injection heq with h1 _
        subst h1
        rw [hid] at hid'
        cases hid'
    | some id =>
      cases hset : h.set with
      | none =>
        constructor
        · intro hcon
          simp at hcon
        · rintro ⟨h', rest', id', set', heq, -, hset', -⟩
          injection heq with h1 _
          subst h1
          rw [hset] at hset'
          cases hset'
      | some set =>
        dsimp only
        constructor
        · intro hok
          rcases hl : FPacs.recoverLoop O ((h :: rest).reverse)
              (some (FPacs.LambdaKey.new O alphaBytes id set)) with e | l
          · rw [hl] at hok
            simp at hok
          · rw [hl] at hok
            simp only [Except.ok.injEq] at hok
            refine ⟨h, rest, id, set, rfl, hid, hset, ?_⟩
            have hrev : fs.reverse = l := by
              rw [← hok, List.reverse_reverse]
            rw [hrev]
            exact (recoverLoop_ok_iff O _ _ _).mp hl
        · rintro ⟨h', rest', id', set', heq, hid', hset', hwalk⟩
          injection heq with h1 h2
          subst h1
          subst h2
          rw [hid] at hid'
          injection hid' with h3
          subst h3
          rw [hset] at hset'
          injection hset' with h4
          subst h4
          rw [(recoverLoop_ok_iff O _ _ _).mpr hwalk]
          simp

/-- Shared helper: every error path of `RnChain::push` returns before any
field of the chain is assigned, so the post-call state equals the
pre-call state. -/
theorem push_error_fst_eq {q : ℕ} (O : FPacs.Oracle q) (c : FPacs.RnChain q)
    (t : FPacs.Rn q) (err : FPacs.RnErr)
    (h : (FPacs.RnChain.push O c t).2 = .error err) :
    (FPacs.RnChain.push O c t).1 = c := by
  unfold FPacs.RnChain.push at h ⊢
  rcases hc : FPacs.Rn.check O t with e | dh
  · rfl
  · rw [hc] at h
    dsimp only at h
    cases hp : t.hprev with
    | none => rfl
    | some hprev =>
      rw [hp] at h
      dsimp only at h
      by_cases hl : c.lhash ≠ hprev
      · dsimp only
        rw [if_pos hl]
      · rw [if_neg hl] at h
        simp at h

/-- Shared helper: a two-share set with a duplicated index flows through
`ShareVector::recover` unrejected; the Lagrange denominators vanish and
Fermat inversion maps 0 to 0, so the result is the scalar 0. -/
theorem recover_duplicate_pair {q : ℕ} [Fact (Nat.Prime q)] (hq : 2 < q)
    (i : ℕ) (y1 y2 : ZMod q) :
    FPacs.ShareVector.recover [⟨i, y1⟩, ⟨i, y2⟩] = 0 := by
  have hzero : FPacs.scalarInvert (0 : ZMod q) = 0 := by
    unfold FPacs.scalarInvert
    exact zero_pow (by omega)
  have h01 : ((Finset.range 2).filter (fun j => j ≠ 0)) = {1} := by decide
  have h10 : ((Finset.range 2).filter (fun j => j ≠ 1)) = {0} := by decide
  unfold FPacs.ShareVector.recover FPacs.Polynomial.l_i
  simp [h01, h10, hzero, List.range_succ]

/-- The hash input of `LambdaKey::new` is the plain concatenation. -/
theorem lambdaHashInput_concat (alphaBytes id set : List ℕ) :
    FPacs.lambdaHashInput alphaBytes id set = alphaBytes ++ (id ++ set) := by
  unfold FPacs.lambdaHashInput
  rw [List.append_assoc]

/-- Shared helper: for a fixed `alpha`, two `(id, set)` pairs produce the
same KDF input exactly when their plain concatenations coincide — there
is no length framing. -/
theorem lambdaHashInput_eq_iff (alphaBytes id set id' set' : List ℕ) :
    FPacs.lambdaHashInput alphaBytes id set
        = FPacs.lambdaHashInput alphaBytes id' set'
      ↔ id ++ set = id' ++ set' := by
  rw [lambdaHashInput_concat, lambdaHashInput_concat]
  exact ⟨fun h => List.append_cancel_left h, fun h => by rw [h]⟩

/-! ### Concrete collaborator instances for witnesses and counterexamples -/

/-- A toy injective payload codec (stands in for bincode). -/
def toySer (d : FPacs.RnData) : List ℕ :=
  (match d.lambda_prev with
   | none => [0]
   | some l => 1 :: l.key.length :: l.key)
  ++ d.file.dn.length :: (d.file.dn ++ d.file.hfile)

def toyParseFile : List ℕ → Option FPacs.LambdaKey → Option FPacs.RnData
  | [], _ => none
  | n :: rest, lam => some ⟨lam, ⟨rest.take n, rest.drop n⟩⟩

def toyDeser : List ℕ → Option FPacs.RnData
  | 0 :: rest => toyParseFile rest none
  | 1 :: n :: rest => toyParseFile (rest.drop n) (some ⟨rest.take n⟩)
  | _ => none

theorem toy_deser_ser (d : FPacs.RnData) : toyDeser (toySer d) = some d := by
  rcases d with ⟨lam, ⟨dn, hfile⟩⟩
  cases lam with
  | none =>
    simp [toySer, toyDeser, toyParseFile, List.take_left, List.drop_left]
  | some l =>
    cases l with
    | mk lk =>
      simp [toySer, toyDeser, toyParseFile, List.take_left, List.drop_left]

/-- A toy cipher satisfying the decrypt-encrypt law (stands in for the
AES-CBC stream; the IV travels inside the ciphertext as in aesstream). -/
def toyEnc (key iv m : List ℕ) : List ℕ :=
  iv.length :: (iv ++ key.length :: (key ++ m))

def toyDec (key ct : List ℕ) : Option (List ℕ) :=
  match ct with
  | [] => none
  | n :: rest =>
    match rest.drop n with
    | [] => none
    | kl :: r2 =>
      if kl = key.length ∧ r2.take kl = key then some (r2.drop kl) else none

theorem toy_dec_enc (key iv m : List ℕ) :
    toyDec key (toyEnc key iv m) = some m := by
  simp [toyEnc, toyDec, List.drop_left, List.take_left]

/-- A toy 136-byte `ExtSignature` codec (stands in for bincode). -/
def toySerSig {q : ℕ} (sg : FPacs.ExtSignature q) : List ℕ :=
  sg.sig.c.val :: sg.sig.p.val :: sg.key.val :: List.replicate 133 0

def toyDeserSig {q : ℕ} [NeZero q] : List ℕ → Option (FPacs.ExtSignature q)
  | a :: b :: c :: rest =>
    if rest = List.replicate 133 0 then
      some ⟨⟨(a : ZMod q), (b : ZMod q)⟩, (c : ZMod q)⟩
    else none
  | _ => none

theorem toy_serSig_len {q : ℕ} (sg : FPacs.ExtSignature q) :
    (toySerSig sg).length = 136 := by
  simp [toySerSig]

theorem toy_deserSig_serSig {q : ℕ} [NeZero q] (sg : FPacs.ExtSignature q) :
    toyDeserSig (toySerSig sg) = some sg := by
  rcases sg with ⟨⟨c, p⟩, key⟩
  simp [toySerSig, toyDeserSig, ZMod.natCast_val, ZMod.cast_id]

instance : Fact (Nat.Prime 5) := ⟨by norm_num⟩

/-- A concrete oracle over `ZMod 5` with identity hashes and the toy
codecs/cipher: used only to witness theorems and exhibit counterexamples. -/
def exO : FPacs.Oracle 5 where
  hash256 := fun l => l
  pointBytes := fun x => [x.val]
  h1 := fun _ _ => 0
  h2 := fun _ _ _ => 0
  ser := toySer
  deser := toyDeser
  enc := toyEnc
  dec := toyDec
  serSig := toySerSig
  deserSig := toyDeserSig

/-- A record whose sealed payload carries `lambda_prev = Some` although it
sits at the head position, and whose signature does not verify. -/
def exHeadSome : FPacs.Rn 5 :=
  ⟨some [7], some [8], none,
   ⟨0, toyEnc ((FPacs.LambdaKey.new exO [3] [7] [8]).k128) []
        (toySer ⟨some ⟨[9]⟩, ⟨[1], [2]⟩⟩)⟩,
   ⟨⟨1, 0⟩, 0⟩⟩

/-! ### Claim theorems -/

/-- C1: for every threshold `t ≥ 1`, master key pair `(e, EK = e·G)`,
polynomial `Polynomial::rnd(e, t)` (coefficients `e :: coefs` with
`|coefs| = t`) with share vector of `n ≥ t+1` shares, and every chain
built via `Rn::head` then zero or more `Rn::tail` under `EK` (each tail
payload carrying its predecessor's `LambdaKey` as `lambda_prev`),
`recover` applied to the compressed point obtained by lifting each share
by `C.kn()` and Lagrange-recovering the point shares returns `Ok` with
exactly the original file references in head-first creation order. -/
theorem c1_chain_full_recovery {q : ℕ} [Fact (Nat.Prime q)] (O : FPacs.Oracle q)
    (hdec : ∀ key iv m, O.dec key (O.enc key iv m) = some m)
    (hdeser : ∀ d, O.deser (O.ser d) = some d)
    (srcSecret e : ZMod q) (t n : ℕ) (coefs : List (ZMod q))
    (_ht : 1 ≤ t) (hcoefs : coefs.length = t) (hn : t + 1 ≤ n) (hq : n < q)
    (id set : List ℕ) (s0 : RecordSeed q) (ss : List (RecordSeed q)) :
    ∃ C : FPacs.RnChain q,
      buildChain O (FPacs.KeyPair.mk' q srcSecret) (e * FPacs.G q) id set s0 ss
        = .ok C ∧
      FPacs.RnChain.recover O C
        (O.pointBytes (FPacs.RistrettoShareVector.recover
          (FPacs.ShareVector.mulPoint
            (FPacs.Polynomial.shares (e :: coefs) n) C.kn)))
        = .ok (s0.file :: ss.map (fun s => s.file)) :=
  buildChain_full_recovery O hdec hdeser srcSecret e t n coefs hcoefs hn hq
    id set s0 ss

/-- Witness for C1 at `q = 5` with the toy collaborators: a two-record
chain with threshold 1 and 2 shares recovers both file references. -/
theorem c1_chain_full_recovery_witness :
    ∃ C : FPacs.RnChain 5,
      buildChain exO (FPacs.KeyPair.mk' 5 3) (2 * FPacs.G 5) [7] [8]
        ⟨1, [], ⟨[1], [2]⟩⟩ [⟨2, [], ⟨[3], [4]⟩⟩] = .ok C ∧
      FPacs.RnChain.recover exO C
        (exO.pointBytes (FPacs.RistrettoShareVector.recover
          (FPacs.ShareVector.mulPoint
            (FPacs.Polynomial.shares ((2 : ZMod 5) :: [4]) 2) C.kn)))
        = .ok (⟨[1], [2]⟩ :: [⟨[3], [4]⟩]) :=
  c1_chain_full_recovery exO toy_dec_enc toy_deser_ser 3 2 1 2 [4]
    (by decide) rfl (by decide) (by decide) [7] [8]
    ⟨1, [], ⟨[1], [2]⟩⟩ [⟨2, [], ⟨[3], [4]⟩⟩]

/-- C2: for every polynomial over the scalar field with coefficient list
`a` (so `f(0) = a₀` and degree `|a| − 1`) and every selection of at least
`|a|` share indices that are positive and pairwise distinct in the field,
`ShareVector::recover` on the shares `(i, f(i))` returns `f(0)`; and for
any point `Q`, `RistrettoShareVector::recover` on the lifted shares
`(i, f(i)·Q)` returns `f(0)·Q`. -/
theorem c2_lagrange_recovery {q : ℕ} [Fact (Nat.Prime q)]
    (a : List (ZMod q)) (sel : List ℕ)
    (_hpos : ∀ i ∈ sel, 1 ≤ i)
    (hnd : (sel.map (fun i : ℕ => (i : ZMod q))).Nodup)
    (hlen : a.length ≤ sel.length) :
    FPacs.ShareVector.recover
      (sel.map (fun i : ℕ => ⟨i, FPacs.Polynomial.evaluate a (i : ZMod q)⟩))
      = a.headD 0
    ∧ ∀ Q : ZMod q,
      FPacs.RistrettoShareVector.recover
        (FPacs.ShareVector.mulPoint (sel.map (fun i : ℕ =>
          (⟨i, FPacs.Polynomial.evaluate a (i : ZMod q)⟩ : FPacs.Share q))) Q)
        = a.headD 0 * Q :=
  ⟨recover_map_eval a sel hnd hlen,
   fun Q => by rw [ristretto_recover_mulPoint, recover_map_eval a sel hnd hlen]⟩

/-- Witness for C2 at `q = 5`: shares of `f(x) = 3 + 2x` at `{1, 2}`
recover the secret 3, and the lifted shares recover `3·Q`. -/
theorem c2_lagrange_recovery_witness :
    (FPacs.ShareVector.recover
      ([1, 2].map (fun i : ℕ =>
        ⟨i, FPacs.Polynomial.evaluate [3, 2] (i : ZMod 5)⟩))
      = ([3, 2] : List (ZMod 5)).headD 0)
    ∧ ∀ Q : ZMod 5,
      FPacs.RistrettoShareVector.recover
        (FPacs.ShareVector.mulPoint ([1, 2].map (fun i : ℕ =>
          (⟨i, FPacs.Polynomial.evaluate [3, 2] (i : ZMod 5)⟩ : FPacs.Share 5))) Q)
        = ([3, 2] : List (ZMod 5)).headD 0 * Q :=
  c2_lagrange_recovery [3, 2] [1, 2] (by decide) (by decide) (by decide)

/-- C3: for every secret scalar `s` and message list `data`, the
signature produced by `Signature::sign(s, s·G, data)` verifies against
`s·G` and the same data, and likewise for `ExtSignature`. -/
theorem c3_signature_correct {q : ℕ} (O : FPacs.Oracle q) (s : ZMod q)
    (data : List (List ℕ)) :
    FPacs.Signature.verify O
        (FPacs.Signature.sign O s (s * FPacs.G q) data) (s * FPacs.G q) data
      = true
    ∧ FPacs.ExtSignature.verify O
        (FPacs.ExtSignature.sign O s (s * FPacs.G q) data) data = true :=
  ⟨sign_verify_ok O s data, ext_sign_verify_ok O s data⟩

/-- C4: for every key pair, data key `dn`, and plaintext, running
`FnAdaptor::load` on the output of `FnAdaptor::save` succeeds and returns
the plaintext (given the cipher round-trip law and the 136-byte signature
codec laws of the external collaborators). -/
theorem c4_file_roundtrip {q : ℕ} (O : FPacs.Oracle q)
    (hdec : ∀ key iv m, O.dec key (O.enc key iv m) = some m)
    (hsiglen : ∀ sg : FPacs.ExtSignature q, (O.serSig sg).length = 136)
    (hdesersig : ∀ sg : FPacs.ExtSignature q, O.deserSig (O.serSig sg) = some sg)
    (s : ZMod q) (dn iv pt : List ℕ) :
    FPacs.FnAdaptor.load O dn
      (FPacs.FnAdaptor.save O (FPacs.KeyPair.mk' q s) dn iv pt) = .ok pt :=
  fnAdaptor_roundtrip O hdec hsiglen hdesersig s dn iv pt

/-- Witness for C4 at `q = 5` with the toy collaborators. -/
theorem c4_file_roundtrip_witness :
    FPacs.FnAdaptor.load exO [9]
      (FPacs.FnAdaptor.save exO (FPacs.KeyPair.mk' 5 2) [9] [6] [1, 2, 3])
      = .ok [1, 2, 3] :=
  c4_file_roundtrip exO toy_dec_enc toy_serSig_len toy_deserSig_serSig 2
    [9] [6] [1, 2, 3]

/-- C6 counterexample: a concrete chain whose single (head) record's
sealed payload carries `lambda_prev = Some` and whose signature fails
`check`, yet `recover` silently succeeds instead of returning an error —
refuting both the head-lambda-kind clause and the signature clause of
the claim. -/
theorem c6_recover_counterexample :
    FPacs.Rn.check exO exHeadSome = .error .badSig
    ∧ FPacs.RnEncData.decryptData exO exHeadSome.data
        (FPacs.LambdaKey.new exO [3] [7] [8])
        = .ok ⟨some ⟨[9]⟩, ⟨[1], [2]⟩⟩
    ∧ FPacs.RnChain.recover exO ⟨[], [exHeadSome]⟩ [3] = .ok [⟨[1], [2]⟩] :=
  ⟨rfl, rfl, rfl⟩

/-- C6 (amended): `recover` returns `Ok` exactly when the head exists
with `Some id`/`Some set` and every record of the reverse walk unseals
and deserializes under the threaded lambdas (`WalksOk`); so any
unseal/deserialize failure or missing intermediate lambda yields a
non-`Ok` outcome, while signatures are never checked and a head payload
carrying `Some` is silently accepted. -/
theorem c6_recover_ok_characterization {q : ℕ} (O : FPacs.Oracle q)
    (C : FPacs.RnChain q) (alphaBytes : List ℕ) (fs : List FPacs.RnFileRef) :
    FPacs.RnChain.recover O C alphaBytes = .ok fs
      ↔ ∃ (h : FPacs.Rn q) (rest : List (FPacs.Rn q)) (id set : List ℕ),
          C.chain = h :: rest ∧ h.id = some id ∧ h.set = some set ∧
          WalksOk O C.chain.reverse
            (some (FPacs.LambdaKey.new O alphaBytes id set)) fs.reverse :=
  recover_ok_iff O C alphaBytes fs

/-- C7 counterexample: two distinct `(id, set)` pairs whose plain
concatenations coincide produce the same `LambdaKey::new` hash input —
there is no length-prefixed framing. -/
theorem c7_lambda_framing_counterexample :
    FPacs.lambdaHashInput [0] [97, 98] [99]
        = FPacs.lambdaHashInput [0] [97] [98, 99]
    ∧ ¬ (([97, 98], [99]) = (([97], [98, 99]) : List ℕ × List ℕ)) := by
  decide

/-- C7 (amended): the byte string hashed by `LambdaKey::new` is the plain
concatenation `alpha ∥ id ∥ set`, so for a fixed `alpha` two pairs yield
the same KDF input exactly when their concatenations `id ++ set`
coincide. -/
theorem c7_lambda_hash_input_plain_concat
    (alphaBytes id set id' set' : List ℕ) :
    FPacs.lambdaHashInput alphaBytes id set = alphaBytes ++ id ++ set
    ∧ (FPacs.lambdaHashInput alphaBytes id set
        = FPacs.lambdaHashInput alphaBytes id' set'
      ↔ id ++ set = id' ++ set') :=
  ⟨rfl, lambdaHashInput_eq_iff alphaBytes id set id' set'⟩

/-- C8 counterexample: a share vector with a duplicated index is a value
of the source's `ShareVector` type (a plain `Vec` with no validating
constructor) and flows through `recover`, which returns the scalar 0
rather than any `Threshold` rejection. -/
theorem c8_duplicate_reaches_recover :
    FPacs.ShareVector.recover (q := 5) [⟨1, 2⟩, ⟨1, 3⟩] = 0 := by
  decide

/-- C8 (amended): the code performs no construction-time validation; a
two-share set with equal indices reaches `recover`, whose Lagrange
denominators vanish and whose Fermat inversion maps 0 to 0, so it
returns the scalar 0 instead of a `Threshold` error. -/
theorem c8_duplicate_recover_zero {q : ℕ} [Fact (Nat.Prime q)] (hq : 2 < q)
    (i : ℕ) (y1 y2 : ZMod q) :
    FPacs.ShareVector.recover [⟨i, y1⟩, ⟨i, y2⟩] = 0 :=
  recover_duplicate_pair hq i y1 y2

/-- Witness for the amended C8 at `q = 5`. -/
theorem c8_duplicate_recover_zero_witness :
    2 < 5 ∧ FPacs.ShareVector.recover (q := 5) [⟨3, 4⟩, ⟨3, 2⟩] = 0 :=
  ⟨by decide, c8_duplicate_recover_zero (by decide) 3 4 2⟩

/-- C9: reading `ReadUntil::new(input, resv)` to exhaustion emits exactly
the first `|input| − resv` bytes in order and leaves the last `resv`
bytes available via `remainder()`, and the reader fails when
`|input| < resv`. -/
theorem c9_read_until_contract (input : List ℕ) (resv : ℕ) :
    readUntilDrain input resv
      = if resv ≤ input.length then
          .ok (input.take (input.length - resv),
            input.drop (input.length - resv))
        else .error .io :=
  readUntilDrain_spec input resv

/-- C10: whenever `RnChain::push` returns an error — signature check
failure, not a tail record, or hash-link mismatch — the chain state
(`lhash` and the record vector) is exactly as before the call. -/
theorem c10_push_error_preserves_chain {q : ℕ} (O : FPacs.Oracle q)
    (c : FPacs.RnChain q) (t : FPacs.Rn q) (err : FPacs.RnErr)
    (h : (FPacs.RnChain.push O c t).2 = .error err) :
    (FPacs.RnChain.push O c t).1 = c :=
  push_error_fst_eq O c t err h

/-- Witness for C10: pushing a record with an invalid signature fails and
leaves the chain unchanged. -/
theorem c10_push_error_preserves_chain_witness :
    (FPacs.RnChain.push exO ⟨[0], [exHeadSome]⟩ exHeadSome).2
      = .error FPacs.RnErr.badSig
    ∧ (FPacs.RnChain.push exO ⟨[0], [exHeadSome]⟩ exHeadSome).1
      = ⟨[0], [exHeadSome]⟩ :=
  ⟨rfl, c10_push_error_preserves_chain exO ⟨[0], [exHeadSome]⟩ exHeadSome
    FPacs.RnErr.badSig rfl⟩
